import Mathlib

/-!
Verification development for the federated-healthcare repository.

Shallow embedding of the core components the specification describes:
the aggregation strategies (`backend/federated/aggregation.py`), the
federated server (`backend/federated/server.py`), the drift detector
(`backend/drift/detector.py`) and the model swapper
(`backend/services/model_swapper.py`).

Modelling conventions:
* Python floats are idealised as rationals (`ℚ`); the only genuinely
  irrational operation in the core, `np.sqrt` in `_weight_distance`,
  is modelled exactly over `ℝ` via `Real.sqrt`.
* Python dictionaries are insertion-ordered association lists
  `List (String × β)`; assignment to an existing key keeps its position,
  assignment to a fresh key appends.
* numpy / torch tensors are flattened to `List ℚ`.
* Fallible steps (KeyError, ZeroDivisionError, `load_state_dict`
  failures, IndexError on `[-1]`) are modelled with `Option`.
-/

namespace FedHealth

/-- A parameter vector: one flattened tensor. -/
abbrev Vec := List ℚ

/-- A parameter map: `Dict[str, tensor]` in the source. -/
abbrev ParamMap := List (String × Vec)

/-- The keys of an association list, in dictionary (insertion) order. -/
def keyList {β : Type} (m : List (String × β)) : List String := m.map Prod.fst

/-- Pointwise addition of two vectors (`tensor + tensor`). -/
def addVec (a b : Vec) : Vec := List.zipWith (· + ·) a b

/-- Pointwise subtraction (`tensor - tensor`). -/
def subVec (a b : Vec) : Vec := List.zipWith (· - ·) a b

/-- Scalar multiplication (`tensor * scalar`). -/
def smulVec (w : ℚ) (v : Vec) : Vec := v.map (fun x => w * x)

/-- `torch.zeros_like`. -/
def zerosLike (v : Vec) : Vec := v.map (fun _ => 0)

/-- Replace the value stored at key `k` by `f` of it, keeping dictionary
order (Python assignment to an existing key). -/
def updateVal {β : Type} (k : String) (f : β → β) : List (String × β) → List (String × β)
  | [] => []
  | (k2, v) :: rest => if k2 = k then (k2, f v) :: rest else (k2, v) :: updateVal k f rest

/-- Python dict assignment `d[k] = v`: replace in place if present,
append otherwise. -/
def dictInsert {β : Type} (l : List (String × β)) (k : String) (v : β) : List (String × β) :=
  if (l.lookup k).isSome then updateVal k (fun _ => v) l else l ++ [(k, v)]

/-- One iteration of the accumulation loop body shared by the weighted
aggregation strategies:
`if key not in avg: avg[key] = torch.zeros_like(value)` followed by
`avg[key] += add`, where `v0` is the client value used by `zeros_like`. -/
def accumAdd (avg : ParamMap) (k : String) (v0 add : Vec) : ParamMap :=
  match avg.lookup k with
  | some _ => updateVal k (fun cur => addVec cur add) avg
  | none => avg ++ [(k, addVec (zerosLike v0) add)]

/-- Accumulate one client's whole map with weight factor `w`
(the inner `for key, value in weights.items()` loop of FedAvg). -/
def accumClient (avg : ParamMap) (w : ℚ) (m : ParamMap) : ParamMap :=
  m.foldl (fun a kv => accumAdd a kv.1 kv.2 (smulVec w kv.2)) avg

/-- The outer client loop of the weighted-average aggregations: each
client map is accumulated with its weight factor, starting from `{}`. -/
def weightedAccum (clients : List (ℚ × ParamMap)) : ParamMap :=
  clients.foldl (fun avg wm => accumClient avg wm.1 wm.2) []

/-- `AggregationStrategies.fedavg` (aggregation.py lines 18-33):
weight factor `samples_i / total_samples`, then weighted accumulation.
(When `total_samples = 0` Python raises `ZeroDivisionError`; the claims
about `fedavg` all assume positive sample counts, where the branch is
unreachable — here `ℚ` division by zero yields the junk value `0`.) -/
def fedavg (client_weights : List ParamMap) (client_samples : List ℕ) : ParamMap :=
  let total : ℚ := (client_samples.sum : ℕ)
  weightedAccum ((client_weights.zip client_samples).map
    (fun p => ((p.2 : ℚ) / total, p.1)))

/-- Inner loop of `AggregationStrategies.fedprox` for one client:
`proximal_term = mu * (value - global_weights[key])` and
`avg_weights[key] += (value - proximal_term) * weight_factor`.
`global_weights[key]` raises `KeyError` when absent, modelled by `none`. -/
def proxClient (mu : ℚ) (g : ParamMap) (w : ℚ) (avg : ParamMap) (m : ParamMap) :
    Option ParamMap :=
  m.foldlM (fun a kv =>
    match g.lookup kv.1 with
    | none => none
    | some gk =>
        some (accumAdd a kv.1 kv.2
          (smulVec w (subVec kv.2 (smulVec mu (subVec kv.2 gk)))))) avg

/-- `AggregationStrategies.fedprox` (aggregation.py lines 35-55). -/
def fedprox (client_weights : List ParamMap) (client_samples : List ℕ)
    (global_weights : ParamMap) (mu : ℚ) : Option ParamMap :=
  let total : ℚ := (client_samples.sum : ℕ)
  (client_weights.zip client_samples).foldlM
    (fun avg p => proxClient mu global_weights ((p.2 : ℚ) / total) avg p.1) []

/-- `AggregationStrategies.simple_average` (aggregation.py lines 214-228):
plain sums per key followed by division by the number of clients. -/
def simple_average (client_weights : List ParamMap) : ParamMap :=
  let acc := client_weights.foldl
    (fun avg m => m.foldl (fun a kv => accumAdd a kv.1 kv.2 kv.2) avg) []
  acc.map (fun kv => (kv.1, kv.2.map (fun x => x / (client_weights.length : ℚ))))

/-! ### Krum (aggregation.py lines 95-131, 204-212) -/

/-- Sum of squares of a vector (`torch.sum(diff ** 2)`). -/
def sumSq (v : Vec) : ℚ := (v.map (fun x => x ^ 2)).sum

/-- The radicand of `_weight_distance`: for each key of `weights1`,
`diff = weights1[key] - weights2[key]`, accumulating `sum(diff ** 2)`.
(`weights2[key]` raises `KeyError` when absent; every claim about Krum
assumes identical key sets, where the lookup always succeeds, so the
`getD []` default is never exercised there.) -/
def sumSqDiff (w1 w2 : ParamMap) : ℚ :=
  (w1.map (fun kv => sumSq (subVec kv.2 ((w2.lookup kv.1).getD [])))).sum

/-- `AggregationStrategies._weight_distance`: Euclidean distance
`np.sqrt(distance)` between two parameter maps treated as flattened
vectors. -/
noncomputable def weight_distance (w1 w2 : ParamMap) : ℝ :=
  Real.sqrt ((sumSqDiff w1 w2 : ℚ) : ℝ)

/-- Entry `(i, j)` of the `distances` matrix built by `krum`: the
diagonal stays at its `np.zeros` initialisation, and each off-diagonal
pair is filled once from the `i < j` loop and mirrored. -/
noncomputable def distEntry (cw : List ParamMap) (i j : ℕ) : ℝ :=
  if i = j then 0
  else if i < j then weight_distance (cw.getD i []) (cw.getD j [])
  else weight_distance (cw.getD j []) (cw.getD i [])

/-- Row `i` of the `distances` matrix (`distances[i]`). -/
noncomputable def distRow (cw : List ParamMap) (i : ℕ) : List ℝ :=
  (List.range cw.length).map (distEntry cw i)

/-- `np.sort` on a row: ascending order. -/
noncomputable def sortR (l : List ℝ) : List ℝ :=
  @List.insertionSort ℝ (· ≤ ·) (fun a b => Classical.propDecidable (a ≤ b)) l

/-- `krum`'s score of client `i`:
`np.sum(np.sort(distances[i])[:n-f-2])`. -/
noncomputable def krumScore (cw : List ParamMap) (f i : ℕ) : ℝ :=
  ((sortR (distRow cw i)).take (cw.length - f - 2)).sum

/-- The `scores` list built by `krum`. -/
noncomputable def krumScores (cw : List ParamMap) (f : ℕ) : List ℝ :=
  (List.range cw.length).map (krumScore cw f)

section
open Classical

/-- Helper for `np.argmin`: first index attaining the minimum.
`best` is the least value seen so far, found at index `bi`; `i` is the
index of the head of the remaining list. -/
noncomputable def argminAux : ℝ → ℕ → ℕ → List ℝ → ℕ
  | _, bi, _, [] => bi
  | best, bi, i, x :: xs =>
      if x < best then argminAux x i (i + 1) xs
      else argminAux best bi (i + 1) xs

/-- `np.argmin`: index of the first occurrence of the minimum
(`0` on an empty list, unreachable in `krum`). -/
noncomputable def argminIdx : List ℝ → ℕ
  | [] => 0
  | x :: xs => argminAux x 0 1 xs

end

/-- `AggregationStrategies.krum` (aggregation.py lines 95-131). -/
noncomputable def krum (client_weights : List ParamMap) (byzantine_tolerance : ℕ) :
    ParamMap :=
  let n := client_weights.length
  let f := byzantine_tolerance
  if n ≤ 2 * f + 1 then simple_average client_weights
  else client_weights.getD (argminIdx (krumScores client_weights f)) []

/-- Modelled from the claim's words (spec §4.1): the score of client
`i` as the sum of the `n − f − 2` smallest Euclidean distances from
client `i`'s map to the OTHER clients' maps, self-distance excluded. -/
noncomputable def krumClaimScore (cw : List ParamMap) (f i : ℕ) : ℝ :=
  ((sortR (((List.range cw.length).erase i).map (distEntry cw i))).take
    (cw.length - f - 2)).sum

/-- The score the code actually computes, with the self-distance
separated out: the sum of the `n − f − 3` smallest distances to the
other clients. -/
noncomputable def krumAmendScore (cw : List ParamMap) (f i : ℕ) : ℝ :=
  ((sortR (((List.range cw.length).erase i).map (distEntry cw i))).take
    (cw.length - f - 2 - 1)).sum

/-- Embedding of rational vectors into the reals. -/
def castR (l : List ℚ) : List ℝ := l.map (fun q : ℚ => (q : ℝ))

/-- Computable counterpart of `sortR` over the rationals. -/
def sortQ (l : List ℚ) : List ℚ := l.insertionSort (· ≤ ·)

/-- Computable counterpart of `argminAux` over the rationals. -/
def argminAuxQ : ℚ → ℕ → ℕ → List ℚ → ℕ
  | _, bi, _, [] => bi
  | best, bi, i, x :: xs =>
      if x < best then argminAuxQ x i (i + 1) xs
      else argminAuxQ best bi (i + 1) xs

/-- Computable counterpart of `argminIdx` over the rationals. -/
def argminIdxQ : List ℚ → ℕ
  | [] => 0
  | x :: xs => argminAuxQ x 0 1 xs

/-- Six single-key one-dimensional client maps exercising Krum with
`f = 2`: clients 0 and 1 form a tight pair far from everyone, clients
2, 3, 4 form a cluster, client 5 is an outlier. -/
def krumClients : List ParamMap :=
  [[("w", [0])], [("w", [1])], [("w", [100])], [("w", [106])],
   [("w", [112])], [("w", [1000])]]

/-! ### Federated server (server.py)

Wall-clock timestamps (`datetime.now()`) and the periodic on-disk
persistence in `_save_model` (pure I/O behind its own `try/except`,
touching no coordinator state) are not represented.
-/

/-- The metrics dictionary a client submits: `accuracy` and `loss` are
per-epoch lists, each field possibly absent (`metrics.get(..., default)`). -/
structure ClientMetrics where
  accuracy : Option (List ℚ)
  loss : Option (List ℚ)
  samples_used : Option ℕ
deriving DecidableEq

/-- A pending client update as stored by `register_client_update`:
`samples` caches `metrics.get('samples_used', 0)`. -/
structure ClientUpdate where
  weights : ParamMap
  metrics : ClientMetrics
  samples : ℕ
deriving DecidableEq

/-- `config['min_clients']`. -/
def min_clients : ℕ := 3

/-- Coordinator state (`FederatedServer` fields; the timestamp list of
`training_history` is omitted). -/
structure ServerState where
  client_updates : List (String × ClientUpdate)
  training_round : ℕ
  global_model : ParamMap
  history_rounds : List ℕ
  history_accuracies : List ℚ
  history_participation : List ℕ
deriving DecidableEq

/-- Result dictionaries returned by `register_client_update` /
`aggregate_updates`, reduced to the fields the spec talks about. -/
inductive ServerResult
  | waiting (clients_received clients_needed : ℕ)
  | insufficient_clients
  | error
  | success (round clients_participated : ℕ) (avg_accuracy avg_loss : ℚ)
deriving DecidableEq

/-- `FederatedServer._fedavg_aggregation` (server.py lines 165-185):
weight factor `update['samples'] / total_samples` and the shared
accumulation loop.  `none` models the `ZeroDivisionError` raised when
the loop runs with `total_samples = 0`. -/
def server_fedavg (updates : List (String × ClientUpdate)) : Option ParamMap :=
  let total : ℕ := (updates.map (fun cu => cu.2.samples)).sum
  if updates ≠ [] ∧ total = 0 then none
  else some (weightedAccum (updates.map
    (fun cu => ((cu.2.samples : ℚ) / (total : ℚ), cu.2.weights))))

/-- `torch.nn.Module.load_state_dict`: succeeds iff the new state dict
has exactly the model's key set with matching tensor shapes, replacing
the model's parameters; otherwise raises (modelled by `none`). -/
def load_state_dict (model new : ParamMap) : Option ParamMap :=
  if (new.all (fun kv => match model.lookup kv.1 with
        | some v => v.length == kv.2.length
        | none => false)
      && model.all (fun kv => (new.lookup kv.1).isSome))
  then some (model.map (fun kv => (kv.1, (new.lookup kv.1).getD kv.2)))
  else none

/-- `metrics.get('accuracy', [0])[-1]`: the `[-1]` indexing raises
`IndexError` when the stored list is empty, modelled by `none`. -/
def lastOrZero (l : Option (List ℚ)) : Option ℚ := (l.getD [0]).getLast?

/-- `FederatedServer._calculate_aggregation_metrics` (server.py lines
224-252): per-round means plus the `training_history` appends.  `none`
models an `IndexError` escaping to `aggregate_updates`'s handler. -/
def calc_aggregation_metrics (s : ServerState) : Option ((ℚ × ℚ) × ServerState) :=
  if s.client_updates = [] then some ((0, 0), s)
  else do
    let accs ← s.client_updates.mapM (fun cu => lastOrZero cu.2.metrics.accuracy)
    let losses ← s.client_updates.mapM (fun cu => lastOrZero cu.2.metrics.loss)
    let n := s.client_updates.length
    let avgA := accs.sum / (n : ℚ)
    let avgL := losses.sum / (n : ℚ)
    some ((avgA, avgL),
      { s with
        history_rounds := s.history_rounds ++ [s.training_round]
        history_accuracies := s.history_accuracies ++ [avgA]
        history_participation := s.history_participation ++ [n] })

/-- `FederatedServer.aggregate_updates` (server.py lines 114-163).
Note that `self.training_round += 1` is the first statement of the
`try` block, so any later failure leaves the incremented counter in
place while the `except` handler returns the error dictionary. -/
def aggregate_updates (s : ServerState) : ServerResult × ServerState :=
  if s.client_updates.length < min_clients then (.insufficient_clients, s)
  else
    let s1 := { s with training_round := s.training_round + 1 }
    match server_fedavg s1.client_updates with
    | none => (.error, s1)
    | some nw =>
      match load_state_dict s1.global_model nw with
      | none => (.error, s1)
      | some gm =>
        let s2 := { s1 with global_model := gm }
        match calc_aggregation_metrics s2 with
        | none => (.error, s2)
        | some ms =>
          (.success ms.2.training_round ms.2.client_updates.length ms.1.1 ms.1.2,
           { ms.2 with client_updates := [] })

/-- `FederatedServer.register_client_update` (server.py lines 83-112):
store/overwrite the pending update for `client_id`, then aggregate
synchronously once `min_clients` updates are pending. -/
def register_client_update (s : ServerState) (client_id : String)
    (model_weights : ParamMap) (metrics : ClientMetrics) :
    ServerResult × ServerState :=
  let upd : ClientUpdate := ⟨model_weights, metrics, metrics.samples_used.getD 0⟩
  let s1 := { s with client_updates := dictInsert s.client_updates client_id upd }
  if min_clients ≤ s1.client_updates.length then aggregate_updates s1
  else (.waiting s1.client_updates.length min_clients, s1)

/-- A submission as fed to `register_client_update`. -/
structure RegCall where
  client_id : String
  weights : ParamMap
  metrics : ClientMetrics

/-- A sequence of client submissions processed in order. -/
def runRegisters (s : ServerState) (calls : List RegCall) : ServerState :=
  calls.foldl (fun st c => (register_client_update st c.client_id c.weights c.metrics).2) s

/-! ### Model swapper (model_swapper.py)

The pickle files behind `_load_model` live on disk; the model store is
therefore a parameter `store : String → Option Unit` (spec §6:
`load_model(model_type) → opaque model handle | absent`).
-/

/-- `ModelSwapper.specialized_models`. -/
def specialized_models : List (String × String) :=
  [("athletic", "specialized/athletic_model.pkl"),
   ("diver", "specialized/diver_model.pkl"),
   ("typical", "specialized/typical_model.pkl"),
   ("elderly", "specialized/elderly_model.pkl"),
   ("diabetic", "specialized/diabetic_model.pkl")]

/-- The `drift_to_model` lookup table inside `_select_target_model`. -/
def drift_to_model : List (String × String) :=
  [("athletic", "athletic"),
   ("diver", "diver"),
   ("revert_to_normal", "typical"),
   ("elderly", "elderly"),
   ("diabetic", "diabetic"),
   ("hypertensive", "typical")]

/-- `ModelSwapper._select_target_model` (model_swapper.py lines 132-151):
unknown drift types map to `"typical"`, as does a target missing from
the catalogue. -/
def select_target_model (drift_type : String) (confidence : ℚ) : String :=
  let target := (drift_to_model.lookup drift_type).getD "typical"
  let _ := confidence
  if (specialized_models.lookup target).isSome then target else "typical"

/-- `ModelSwapper._load_model` (model_swapper.py lines 153-166):
`none` for a model type outside the catalogue, otherwise whatever the
on-disk store yields (absent file or unpickling failure ⇒ `none`). -/
def load_model (store : String → Option Unit) (model_type : String) : Option Unit :=
  if (specialized_models.lookup model_type).isSome then store model_type else none

/-- Swapper state: the per-patient active-model map and the capped
per-patient swap history (entry: model type and running swap count). -/
structure SwapperState where
  patient_models : List (String × String)
  model_performance : List (String × List (String × ℕ))
deriving DecidableEq

/-- The dictionary returned by a successful `swap_model`
(timestamp and static metadata omitted). -/
structure SwapRecord where
  patient_id : String
  previous_model : String
  new_model : String
  drift_type : String
  confidence : ℚ
deriving DecidableEq

/-- `swap_model`'s result: the swap record, or the `status: failed`
error dictionary produced by the `except` handler. -/
inductive SwapResult
  | ok (record : SwapRecord)
  | failed (patient_id : String)
deriving DecidableEq

/-- `ModelSwapper._update_performance_tracking` (model_swapper.py lines
168-181): append `(model_type, swap_count)` and keep the last 100. -/
def update_performance_tracking (s : SwapperState) (patient_id model_type : String) :
    SwapperState :=
  let hist := (s.model_performance.lookup patient_id).getD []
  let hist1 := hist ++ [(model_type, hist.length + 1)]
  let hist2 := if 100 < hist1.length then hist1.drop (hist1.length - 100) else hist1
  { s with model_performance := dictInsert s.model_performance patient_id hist2 }

/-- `ModelSwapper.swap_model` (model_swapper.py lines 78-130).  When the
target model fails to load, the raised `ValueError` is caught and the
state is returned untouched. -/
def swap_model (store : String → Option Unit) (s : SwapperState)
    (patient_id drift_type : String) (confidence : ℚ) :
    SwapResult × SwapperState :=
  let target := select_target_model drift_type confidence
  match load_model store target with
  | none => (.failed patient_id, s)
  | some _ =>
    let previous := (s.patient_models.lookup patient_id).getD "federated"
    let s1 := { s with patient_models := dictInsert s.patient_models patient_id target }
    let s2 := update_performance_tracking s1 patient_id target
    (.ok ⟨patient_id, previous, target, drift_type, confidence⟩, s2)

/-- `ModelSwapper.get_active_model` (model_swapper.py lines 187-189). -/
def get_active_model (s : SwapperState) (patient_id : String) : String :=
  (s.patient_models.lookup patient_id).getD "federated"

/-! ### Drift detector (detector.py)

The four detection methods call scipy / sklearn numerical routines
(`ks_2samp`, `ttest_ind`, `chi2.sf`, histograms with `log`, `KMeans`),
which are external collaborators with irrational-valued outputs; they
are abstracted as opaque functions in `DetectorExternals`, typed so
that each may write exactly the per-patient fields the source method
writes (`_cluster_change` stores cluster centers,
`_determine_drift_type` updates the category fields, the others write
nothing).  Everything the claims are about — buffering, dispatch,
history capping, ensemble combination — is embedded concretely. -/

/-- Per-patient stream state (`self.patient_data[patient_id]`):
`cluster_centers` models `statistics['cluster_centers']`, present only
once `_cluster_change` has stored centers; a `category_history` entry is
`(category, timestamp, confidence)`. -/
structure PatientData where
  features : List (List ℚ)
  predictions : List ℤ
  timestamps : List ℕ
  cluster_centers : Option (List (List ℚ))
  current_category : String
  category_history : List (String × ℕ × ℚ)
deriving DecidableEq

/-- `DriftDetector._initialize_patient`. -/
def initPatient : PatientData := ⟨[], [], [], none, "typical", []⟩

/-- Python list slice `l[-w:]` (for `w = 0` the slice is the whole
list). -/
def pyLast {α : Type} (w : ℕ) (l : List α) : List α :=
  if w = 0 then l else l.drop (l.length - w)

/-- `DriftDetector._update_patient_data` (detector.py lines 150-163):
append the new observation to the three parallel streams; once the
length exceeds `window_size * 2`, keep only the last `window_size`
entries of each. -/
def update_patient_data (w : ℕ) (p : PatientData) (features : List ℚ)
    (prediction : ℤ) (now : ℕ) : PatientData :=
  let fs := p.features ++ [features]
  let ps := p.predictions ++ [prediction]
  let ts := p.timestamps ++ [now]
  if 2 * w < fs.length then
    { p with features := pyLast w fs, predictions := pyLast w ps, timestamps := pyLast w ts }
  else
    { p with features := fs, predictions := ps, timestamps := ts }

/-- The `{detected, confidence}` core of one detection method's result
dictionary (all four methods always set both fields). -/
structure MethodResult where
  drift_detected : Bool
  confidence : ℚ
deriving DecidableEq

/-- The dictionary returned by `_combine_detection_results`. -/
structure CombinedResult where
  drift_detected : Bool
  confidence : ℚ
  consensus_ratio : ℚ
  methods_used : ℕ
deriving DecidableEq

/-- `DriftDetector._combine_detection_results` (detector.py lines
383-413): majority vote strictly above 1/2 and average confidence
strictly above 0.6. -/
def combine_detection_results (results : List MethodResult) : CombinedResult :=
  if results.isEmpty then ⟨false, 0, 0, 0⟩
  else
    let drift_votes : ℕ := (results.filter (fun r => r.drift_detected)).length
    let total_weight : ℕ := results.length
    let total_confidence : ℚ := (results.map (fun r => r.confidence)).sum
    let drift_ratio : ℚ := (drift_votes : ℚ) / (total_weight : ℚ)
    let avg_confidence : ℚ :=
      if 0 < total_weight then total_confidence / (total_weight : ℚ) else 0
    ⟨decide ((1 : ℚ)/2 < drift_ratio) && decide ((3 : ℚ)/5 < avg_confidence),
     avg_confidence, drift_ratio, total_weight⟩

/-- Opaque models of the scipy/sklearn-backed pieces of the detector,
each a function of `(window_size, [threshold,] patient data)`:
the four detection methods and `_determine_drift_type` (which returns
the drift type together with the updated `current_category` and
`category_history` — the only fields it writes). -/
structure DetectorExternals where
  statistical_test : ℕ → ℚ → PatientData → MethodResult
  distribution_change : ℕ → PatientData → MethodResult
  cluster_change : ℕ → PatientData → MethodResult × Option (List (List ℚ))
  custom_pattern_detection : ℕ → PatientData → MethodResult
  determine_drift_type : ℕ → PatientData → String × String × List (String × ℕ × ℚ)

/-- `self.detection_methods`: the insertion-ordered dispatch table,
each entry a per-patient state transformer (only `_cluster_change`
writes state: the stored cluster centers). -/
def detection_methods (ext : DetectorExternals) (w : ℕ) (τ : ℚ) :
    List (String × (PatientData → MethodResult × PatientData)) :=
  [("statistical", fun p => (ext.statistical_test w τ p, p)),
   ("distribution", fun p => (ext.distribution_change w p, p)),
   ("clustering", fun p =>
      let rc := ext.cluster_change w p
      (rc.1, { p with cluster_centers :=
        match rc.2 with
        | some cc => some cc
        | none => p.cluster_centers })),
   ("custom", fun p => (ext.custom_pattern_detection w p, p))]

/-- The dictionary `detect_drift` returns, reduced to the fields the
spec talks about (`data_points` only in the insufficient-data branch,
`drift_type` only set after a completed detection). -/
structure DetectOutcome where
  drift_detected : Bool
  confidence : ℚ
  drift_type : Option String
  data_points : Option ℕ
deriving DecidableEq

/-- Lift a method result into `detect_drift`'s result shape. -/
def methodToOutcome (m : MethodResult) : DetectOutcome :=
  ⟨m.drift_detected, m.confidence, none, none⟩

/-- Lift the ensemble result into `detect_drift`'s result shape. -/
def combinedToOutcome (c : CombinedResult) : DetectOutcome :=
  ⟨c.drift_detected, c.confidence, none, none⟩

/-- Detector state: configuration plus the per-patient streams and the
capped per-patient detection history (entries carry their timestamp). -/
structure DetectorState where
  window_size : ℕ
  threshold : ℚ
  patient_data : List (String × PatientData)
  detection_history : List (String × List (DetectOutcome × ℕ))

/-- `DriftDetector.__init__` with empty per-patient tables. -/
def initDetector (w : ℕ) (τ : ℚ) : DetectorState := ⟨w, τ, [], []⟩

/-- `DriftDetector._update_detection_history` (detector.py lines
457-471): append the result and keep only the last 100 entries. -/
def update_detection_history (s : DetectorState) (patient_id : String)
    (r : DetectOutcome) (now : ℕ) : DetectorState :=
  let h0 := (s.detection_history.lookup patient_id).getD []
  let h1 := h0 ++ [(r, now)]
  let h2 := if 100 < h1.length then pyLast 100 h1 else h1
  { s with detection_history := dictInsert s.detection_history patient_id h2 }

/-- The lazy `_initialize_patient` call at the top of `detect_drift`. -/
def ensurePatient (s : DetectorState) (patient_id : String) : DetectorState :=
  if (s.patient_data.lookup patient_id).isSome then s
  else { s with
         patient_data := s.patient_data ++ [(patient_id, initPatient)],
         detection_history := s.detection_history ++ [(patient_id, [])] }

/-- The method-selection block of `detect_drift` (detector.py lines
91-104): `"auto"` runs all four methods in dictionary order and
combines them; a registered name runs that method; any other string
falls through to `self._statistical_test`. -/
def dispatchMethod (ext : DetectorExternals) (w : ℕ) (τ : ℚ) (method : String)
    (p : PatientData) : DetectOutcome × PatientData :=
  if method = "auto" then
    let run := (detection_methods ext w τ).foldl
      (fun acc nf =>
        let r := nf.2 acc.2
        (acc.1 ++ [r.1], r.2)) ([], p)
    (combinedToOutcome (combine_detection_results run.1), run.2)
  else
    match (detection_methods ext w τ).lookup method with
    | some fn =>
        let r := fn p
        (methodToOutcome r.1, r.2)
    | none => (methodToOutcome (ext.statistical_test w τ p), p)

/-- `DriftDetector.detect_drift` (detector.py lines 60-129):
initialise the patient lazily, push the new observation, bail out with
`detected = false` while fewer than `window_size` samples are buffered,
dispatch on `method`, record the result in the detection history, then
determine and attach the drift type. -/
def detect_drift (ext : DetectorExternals) (s : DetectorState) (features : List ℚ)
    (prediction : ℤ) (patient_id : String) (method : String) (now : ℕ) :
    DetectOutcome × DetectorState :=
  let s0 := ensurePatient s patient_id
  let p0 := (s0.patient_data.lookup patient_id).getD initPatient
  let p1 := update_patient_data s0.window_size p0 features prediction now
  if p1.features.length < s0.window_size then
    (⟨false, 0, none, some p1.features.length⟩,
     { s0 with patient_data := dictInsert s0.patient_data patient_id p1 })
  else
    let rp := dispatchMethod ext s0.window_size s0.threshold method p1
    let s1 := { s0 with patient_data := dictInsert s0.patient_data patient_id rp.2 }
    let s2 := update_detection_history s1 patient_id rp.1 now
    if rp.1.drift_detected then
      let d := ext.determine_drift_type s2.window_size rp.2
      let p3 := { rp.2 with current_category := d.2.1, category_history := d.2.2 }
      ({ rp.1 with drift_type := some d.1 },
       { s2 with patient_data := dictInsert s2.patient_data patient_id p3 })
    else
      ({ rp.1 with drift_type := some "none" }, s2)

/-- One inference-pipeline call into the detector. -/
structure DetectCall where
  features : List ℚ
  prediction : ℤ
  patient_id : String
  method : String
  now : ℕ

/-- A sequence of detection calls processed in order. -/
def runDetects (ext : DetectorExternals) (s : DetectorState) (calls : List DetectCall) :
    DetectorState :=
  calls.foldl
    (fun st c => (detect_drift ext st c.features c.prediction c.patient_id c.method c.now).2) s

/-- A trivial instantiation of the scipy/sklearn-backed pieces of the
detector, used to witness the detector theorems on concrete inputs. -/
def trivialExternals : DetectorExternals :=
  ⟨fun _ _ _ => ⟨false, 0⟩, fun _ _ => ⟨false, 0⟩,
   fun _ _ => (⟨false, 0⟩, none), fun _ _ => ⟨false, 0⟩,
   fun _ p => ("none", p.current_category, p.category_history)⟩

/-- A patient with one buffered observation, for witnessing. -/
def onePatient : PatientData := ⟨[[1]], [0], [0], none, "typical", []⟩

/-- A detector state (window size 1) that already buffered one
observation for patient `"p"`. -/
def oneObsState : DetectorState := ⟨1, 1/20, [("p", onePatient)], [("p", [])]⟩

/-- The C5 invariant: the patient's three buffered streams are the
common suffix (from some index `k`) of the full observation stream for
that patient, and the feature buffer is capped at twice the window. -/
def BufferInv (st : DetectorState) (pid : String) (obs : List DetectCall) : Prop :=
  (st.patient_data.lookup pid = none → obs = [])
  ∧ ∀ p, st.patient_data.lookup pid = some p →
      p.features.length ≤ 2 * st.window_size
      ∧ ∃ k, k ≤ obs.length
        ∧ p.features = (obs.map (fun c => c.features)).drop k
        ∧ p.predictions = (obs.map (fun c => c.prediction)).drop k
        ∧ p.timestamps = (obs.map (fun c => c.now)).drop k

/-- The per-key accumulated value of the weighted-accumulation loops:
fold the per-client contribution `w • m[k]` over the clients,
starting from `init`. -/
def accumVal (clients : List (ℚ × ParamMap)) (k : String) (init : Vec) : Vec :=
  clients.foldl (fun acc wm => addVec acc (smulVec wm.1 ((wm.2.lookup k).getD []))) init

/-- Well-formed metrics used in concrete server scenarios. -/
def okMetrics : ClientMetrics := ⟨some [4/5], some [1/2], some 10⟩

/-- A coordinator at round 7 with an empty pending buffer and a
single-key global model. -/
def emptyServer : ServerState := ⟨[], 7, [("w", [0])], [], [], []⟩

/-- A concrete coordinator state at round 5 with three pending updates
whose parameter-key sets differ across clients: clients `"a"` and `"b"`
submit only `"w"`, client `"c"` additionally submits `"extra"`, a key
the global model does not have, so `load_state_dict` raises for this
round. -/
def mismatchState : ServerState :=
  { client_updates :=
      [("a", ⟨[("w", [1, 2])], okMetrics, 10⟩),
       ("b", ⟨[("w", [2, 3])], okMetrics, 10⟩),
       ("c", ⟨[("w", [3, 4]), ("extra", [1])], okMetrics, 10⟩)]
    training_round := 5
    global_model := [("w", [0, 0])]
    history_rounds := []
    history_accuracies := []
    history_participation := [] }

/-! ### Association-list lemmas -/

theorem lookup_updateVal_self {β : Type} (k : String) (f : β → β) (l : List (String × β)) :
    (updateVal k f l).lookup k = (l.lookup k).map f := by
  induction l with
  | nil => simp [updateVal]
  | cons kv rest ih =>
      obtain ⟨k2, v⟩ := kv
      by_cases h : k2 = k
      · subst h
        simp [updateVal, List.lookup]
      · have hb : (k == k2) = false := beq_eq_false_iff_ne.mpr (Ne.symm h)
        simp [updateVal, h, List.lookup, hb, ih]

theorem lookup_updateVal_ne {β : Type} (k k' : String) (f : β → β) (l : List (String × β))
    (h : k' ≠ k) : (updateVal k f l).lookup k' = l.lookup k' := by
  induction l with
  | nil => simp [updateVal]
  | cons kv rest ih =>
      obtain ⟨k2, v⟩ := kv
      by_cases h2 : k2 = k
      · subst h2
        have hb : (k' == k2) = false := beq_eq_false_iff_ne.mpr h
        simp [updateVal, List.lookup, hb]
      · simp [updateVal, h2, List.lookup, ih]

theorem keyList_updateVal {β : Type} (k : String) (f : β → β) (l : List (String × β)) :
    keyList (updateVal k f l) = keyList l := by
  induction l with
  | nil => rfl
  | cons kv rest ih =>
      obtain ⟨k2, v⟩ := kv
      by_cases h : k2 = k
      · simp [updateVal, h, keyList]
      · simp only [updateVal, if_neg h, keyList, List.map_cons]
        simpa [keyList] using ih

theorem lookup_append_single_self {β : Type} (l : List (String × β)) (k : String) (v : β)
    (h : l.lookup k = none) : (l ++ [(k, v)]).lookup k = some v := by
  induction l with
  | nil => simp [List.lookup]
  | cons kv rest ih =>
      obtain ⟨k2, v2⟩ := kv
      by_cases h2 : k = k2
      · subst h2
        simp [List.lookup] at h
      · have hb : (k == k2) = false := beq_eq_false_iff_ne.mpr h2
        simp only [List.lookup, hb] at h
        simp only [List.cons_append, List.lookup, hb]
        exact ih h

theorem lookup_append_single_ne {β : Type} (l : List (String × β)) (k k' : String) (v : β)
    (h : k' ≠ k) : (l ++ [(k, v)]).lookup k' = l.lookup k' := by
  induction l with
  | nil => simp [List.lookup, beq_eq_false_iff_ne.mpr h]
  | cons kv rest ih =>
      obtain ⟨k2, v2⟩ := kv
      by_cases h2 : k' = k2
      · subst h2
        simp [List.lookup]
      · have hb : (k' == k2) = false := beq_eq_false_iff_ne.mpr h2
        simp only [List.cons_append, List.lookup, hb]
        exact ih

theorem lookup_dictInsert_self {β : Type} (l : List (String × β)) (k : String) (v : β) :
    (dictInsert l k v).lookup k = some v := by
  unfold dictInsert
  by_cases h : (l.lookup k).isSome
  · rw [if_pos h, lookup_updateVal_self]
    obtain ⟨w, hw⟩ := Option.isSome_iff_exists.mp h
    simp [hw]
  · rw [if_neg h]
    exact lookup_append_single_self l k v (Option.not_isSome_iff_eq_none.mp h)

theorem lookup_dictInsert_ne {β : Type} (l : List (String × β)) (k k' : String) (v : β)
    (h : k' ≠ k) : (dictInsert l k v).lookup k' = l.lookup k' := by
  unfold dictInsert
  by_cases h2 : (l.lookup k).isSome
  · rw [if_pos h2, lookup_updateVal_ne _ _ _ _ h]
  · rw [if_neg h2, lookup_append_single_ne _ _ _ _ h]

theorem keyList_dictInsert_present {β : Type} (l : List (String × β)) (k : String) (v : β)
    (h : (l.lookup k).isSome) : keyList (dictInsert l k v) = keyList l := by
  unfold dictInsert
  rw [if_pos h, keyList_updateVal]

theorem keyList_dictInsert_absent {β : Type} (l : List (String × β)) (k : String) (v : β)
    (h : l.lookup k = none) : keyList (dictInsert l k v) = keyList l ++ [k] := by
  unfold dictInsert
  rw [if_neg (by simp [h]), keyList, keyList, List.map_append]
  rfl

/-- A key is in the key list iff its lookup succeeds. -/
theorem lookup_isSome_iff_mem_keyList {β : Type} (l : List (String × β)) (k : String) :
    (l.lookup k).isSome ↔ k ∈ keyList l := by
  induction l with
  | nil => simp [List.lookup, keyList]
  | cons kv rest ih =>
      obtain ⟨k2, v⟩ := kv
      by_cases h : k = k2
      · subst h
        simp [List.lookup, keyList]
      · have hb : (k == k2) = false := beq_eq_false_iff_ne.mpr h
        simp only [List.lookup, hb, keyList, List.map_cons, List.mem_cons] at ih ⊢
        simp [h, ih]

/-! ### C6: ensemble combination -/

/-- C6.  For every non-empty list of per-method results, the ensemble
combination reports `drift_detected = true` iff the fraction of methods
that detected is strictly greater than 1/2 and the average confidence is
strictly greater than 0.6, and its combined confidence equals the
average confidence; in particular, for confidences
`[0.9, 0.8, 0.7, 0.1]` with three methods detecting it reports
`detected = true` with confidence `0.625`. -/
theorem ensemble_combination_rule :
    (∀ results : List MethodResult, results ≠ [] →
      (((combine_detection_results results).drift_detected = true) ↔
        ((1 : ℚ)/2 <
            ((results.filter (fun r => r.drift_detected)).length : ℚ) / (results.length : ℚ)
          ∧ (3 : ℚ)/5 < (results.map (fun r => r.confidence)).sum / (results.length : ℚ)))
      ∧ (combine_detection_results results).confidence
          = (results.map (fun r => r.confidence)).sum / (results.length : ℚ))
    ∧ combine_detection_results
        [⟨true, 9/10⟩, ⟨true, 4/5⟩, ⟨true, 7/10⟩, ⟨false, 1/10⟩]
      = ⟨true, 5/8, 3/4, 4⟩ := by
  constructor
  · intro results h
    have hne : ¬ results.isEmpty := by simpa [List.isEmpty_iff] using h
    have hlen : 0 < results.length := List.length_pos.mpr h
    constructor
    · simp [combine_detection_results, hne, hlen, Bool.and_eq_true, decide_eq_true_iff]
    · simp [combine_detection_results, hne, hlen]
  · simp only [combine_detection_results, List.filter, List.map]
    norm_num

/-- Witness for C6 at the spec's concrete example. -/
theorem ensemble_combination_rule_witness :
    ([⟨true, 9/10⟩, ⟨true, 4/5⟩, ⟨true, 7/10⟩, ⟨false, 1/10⟩] ≠ ([] : List MethodResult))
    ∧ (combine_detection_results
          [⟨true, 9/10⟩, ⟨true, 4/5⟩, ⟨true, 7/10⟩, ⟨false, 1/10⟩]).confidence
        = (([⟨true, 9/10⟩, ⟨true, 4/5⟩, ⟨true, 7/10⟩,
             (⟨false, 1/10⟩ : MethodResult)].map (fun r => r.confidence)).sum) / 4 :=
  ⟨by decide,
   by simpa using
     (ensemble_combination_rule.1
       [⟨true, 9/10⟩, ⟨true, 4/5⟩, ⟨true, 7/10⟩, ⟨false, 1/10⟩] (by decide)).2⟩

/-! ### C7: failed model swap leaves the assignment unchanged -/

/-- C7.  If the target model for the drift type cannot be loaded,
`swap_model` returns the error result (the caught-exception dictionary,
not an unhandled exception), the swapper state is untouched, and
`get_active_model` returns for that entity exactly what it returned
before the failed call. -/
theorem swap_model_unavailable (store : String → Option Unit) (s : SwapperState)
    (patient_id drift_type : String) (confidence : ℚ)
    (h : load_model store (select_target_model drift_type confidence) = none) :
    (swap_model store s patient_id drift_type confidence).1 = .failed patient_id
    ∧ (swap_model store s patient_id drift_type confidence).2 = s
    ∧ get_active_model (swap_model store s patient_id drift_type confidence).2 patient_id
        = get_active_model s patient_id := by
  simp [swap_model, h]

/-- Witness for C7: an empty model store fails to load the target for
drift type `"athletic"`, and the swap leaves entity `"e1"` on its prior
assignment. -/
theorem swap_model_unavailable_witness :
    load_model (fun _ => none) (select_target_model "athletic" (4/5)) = none
    ∧ ((swap_model (fun _ => none) ⟨[], []⟩ "e1" "athletic" (4/5)).1 = .failed "e1"
       ∧ (swap_model (fun _ => none) ⟨[], []⟩ "e1" "athletic" (4/5)).2 = ⟨[], []⟩
       ∧ get_active_model (swap_model (fun _ => none) ⟨[], []⟩ "e1" "athletic" (4/5)).2 "e1"
           = get_active_model ⟨[], []⟩ "e1") :=
  ⟨by simp [load_model],
   swap_model_unavailable (fun _ => none) ⟨[], []⟩ "e1" "athletic" (4/5)
     (by simp [load_model])⟩

/-! ### C10: unknown detection method falls back to the statistical test -/

/-- C10.  For an entity whose buffer already holds at least
`window_size` samples, calling `detect_drift` with a method string that
is neither `"auto"` nor one of the four registered method names runs the
statistical test alone: the returned detected flag and confidence equal
those of an explicit `method = "statistical"` call on the same state. -/
theorem unknown_method_runs_statistical (ext : DetectorExternals)
    (s : DetectorState) (features : List ℚ) (prediction : ℤ) (patient_id : String)
    (method : String) (now : ℕ)
    (hm1 : method ≠ "auto") (hm2 : method ≠ "statistical")
    (hm3 : method ≠ "distribution") (hm4 : method ≠ "clustering")
    (hm5 : method ≠ "custom")
    (_hbuf : s.window_size ≤
      ((s.patient_data.lookup patient_id).getD initPatient).features.length) :
    (detect_drift ext s features prediction patient_id method now).1.drift_detected
      = (detect_drift ext s features prediction patient_id "statistical" now).1.drift_detected
    ∧ (detect_drift ext s features prediction patient_id method now).1.confidence
      = (detect_drift ext s features prediction patient_id "statistical" now).1.confidence := by
  have hdm : ∀ (w : ℕ) (τ : ℚ) (p : PatientData),
      dispatchMethod ext w τ method p = dispatchMethod ext w τ "statistical" p := by
    intro w τ p
    have hlk : (detection_methods ext w τ).lookup method = none := by
      simp [detection_methods, List.lookup,
        beq_eq_false_iff_ne.mpr hm2, beq_eq_false_iff_ne.mpr hm3,
        beq_eq_false_iff_ne.mpr hm4, beq_eq_false_iff_ne.mpr hm5]
    have hlk2 : (detection_methods ext w τ).lookup "statistical"
        = some (fun p => (ext.statistical_test w τ p, p)) := by
      simp [detection_methods, List.lookup]
    simp [dispatchMethod, hm1, hlk, hlk2]
  have key : detect_drift ext s features prediction patient_id method now
      = detect_drift ext s features prediction patient_id "statistical" now := by
    unfold detect_drift
    simp only [hdm]
  exact ⟨by rw [key], by rw [key]⟩

/-- Witness for C10: on a filled window, method `"bogus"` agrees with
method `"statistical"`. -/
theorem unknown_method_runs_statistical_witness :
    (("bogus" : String) ≠ "auto" ∧ ("bogus" : String) ≠ "statistical"
      ∧ ("bogus" : String) ≠ "distribution" ∧ ("bogus" : String) ≠ "clustering"
      ∧ ("bogus" : String) ≠ "custom"
      ∧ oneObsState.window_size ≤
          ((oneObsState.patient_data.lookup "p").getD initPatient).features.length)
    ∧ ((detect_drift trivialExternals oneObsState [2] 1 "p" "bogus" 5).1.drift_detected
        = (detect_drift trivialExternals oneObsState [2] 1 "p" "statistical" 5).1.drift_detected
      ∧ (detect_drift trivialExternals oneObsState [2] 1 "p" "bogus" 5).1.confidence
        = (detect_drift trivialExternals oneObsState [2] 1 "p" "statistical" 5).1.confidence) :=
  ⟨⟨by decide, by decide, by decide, by decide, by decide,
    by simp [oneObsState, onePatient, initPatient, List.lookup]⟩,
   unknown_method_runs_statistical trivialExternals oneObsState [2] 1 "p" "bogus" 5
     (by decide) (by decide) (by decide) (by decide) (by decide)
     (by simp [oneObsState, onePatient, initPatient, List.lookup])⟩

/-! ### C5: buffer capping -/

theorem pyLast_eq_drop {α : Type} (w : ℕ) (hw : w ≠ 0) (l : List α) :
    pyLast w l = l.drop (l.length - w) := by
  simp [pyLast, hw]

theorem length_pyLast {α : Type} (w : ℕ) (hw : w ≠ 0) (l : List α) (h : w ≤ l.length) :
    (pyLast w l).length = w := by
  rw [pyLast_eq_drop w hw, List.length_drop]
  omega

/-- One `_update_patient_data` step preserves the suffix shape of the
three parallel streams: if the buffers are the last part (from index
`k`) of the full streams `F`, `P`, `T`, then after pushing one
observation they are the last part of the extended streams, and the
features buffer is capped at `2 * window_size`. -/
theorem update_patient_data_suffix (w : ℕ) (hw : 1 ≤ w) (p : PatientData)
    (F : List (List ℚ)) (P : List ℤ) (T : List ℕ) (k : ℕ)
    (hk : k ≤ F.length) (hFP : P.length = F.length) (hFT : T.length = F.length)
    (hF : p.features = F.drop k) (hP : p.predictions = P.drop k)
    (hT : p.timestamps = T.drop k)
    (f : List ℚ) (pr : ℤ) (now : ℕ) :
    ∃ k2, k2 ≤ F.length + 1
      ∧ (update_patient_data w p f pr now).features = (F ++ [f]).drop k2
      ∧ (update_patient_data w p f pr now).predictions = (P ++ [pr]).drop k2
      ∧ (update_patient_data w p f pr now).timestamps = (T ++ [now]).drop k2
      ∧ (update_patient_data w p f pr now).features.length ≤ 2 * w := by
  have hfs : p.features ++ [f] = (F ++ [f]).drop k := by
    rw [hF, List.drop_append_of_le_length hk]
  have hps : p.predictions ++ [pr] = (P ++ [pr]).drop k := by
    rw [hP, List.drop_append_of_le_length (by omega)]
  have hts : p.timestamps ++ [now] = (T ++ [now]).drop k := by
    rw [hT, List.drop_append_of_le_length (by omega)]
  have hlF : (p.features ++ [f]).length = F.length + 1 - k := by
    rw [hfs, List.length_drop, List.length_append]
    simp
  have hlP : (p.predictions ++ [pr]).length = F.length + 1 - k := by
    rw [hps, List.length_drop, List.length_append]
    simp
    omega
  have hlT : (p.timestamps ++ [now]).length = F.length + 1 - k := by
    rw [hts, List.length_drop, List.length_append]
    simp
    omega
  unfold update_patient_data
  by_cases h2 : 2 * w < (p.features ++ [f]).length
  · rw [if_pos h2]
    refine ⟨(p.features ++ [f]).length - w + k, ?_, ?_, ?_, ?_, ?_⟩
    · omega
    · dsimp only
      rw [pyLast_eq_drop w (by omega), hfs, List.drop_drop]
      congr 1
      have e1 : (List.drop k (F ++ [f])).length = F.length + 1 - k := by
        simp [List.length_drop]
      omega
    · dsimp only
      rw [pyLast_eq_drop w (by omega), hps, List.drop_drop]
      congr 1
      have e1 : (List.drop k (P ++ [pr])).length = P.length + 1 - k := by
        simp [List.length_drop]
      omega
    · dsimp only
      rw [pyLast_eq_drop w (by omega), hts, List.drop_drop]
      congr 1
      have e1 : (List.drop k (T ++ [now])).length = T.length + 1 - k := by
        simp [List.length_drop]
      omega
    · dsimp only
      rw [length_pyLast w (by omega) _ (by omega)]
      omega
  · rw [if_neg h2]
    exact ⟨k, by omega, hfs, hps, hts, by dsimp only; omega⟩

theorem update_detection_history_patient_data (s : DetectorState) (pid : String)
    (r : DetectOutcome) (now : ℕ) :
    (update_detection_history s pid r now).patient_data = s.patient_data := rfl

theorem update_detection_history_window (s : DetectorState) (pid : String)
    (r : DetectOutcome) (now : ℕ) :
    (update_detection_history s pid r now).window_size = s.window_size := rfl

/-- Every branch of the method dispatch leaves the three buffered
streams unchanged: only `_cluster_change` writes per-patient state, and
only the stored cluster centers. -/
theorem dispatchMethod_buffer (ext : DetectorExternals) (w : ℕ) (τ : ℚ)
    (method : String) (p : PatientData) :
    (dispatchMethod ext w τ method p).2.features = p.features
    ∧ (dispatchMethod ext w τ method p).2.predictions = p.predictions
    ∧ (dispatchMethod ext w τ method p).2.timestamps = p.timestamps := by
  unfold dispatchMethod
  by_cases hauto : method = "auto"
  · rw [if_pos hauto]
    simp [detection_methods]
  · rw [if_neg hauto]
    rcases hlk : (detection_methods ext w τ).lookup method with _ | fn
    · simp
    · have hfn : (fn p).2.features = p.features ∧ (fn p).2.predictions = p.predictions
          ∧ (fn p).2.timestamps = p.timestamps := by
        simp only [detection_methods, List.lookup] at hlk
        split at hlk
        · cases hlk
          exact ⟨rfl, rfl, rfl⟩
        · split at hlk
          · cases hlk
            exact ⟨rfl, rfl, rfl⟩
          · split at hlk
            · cases hlk
              exact ⟨rfl, rfl, rfl⟩
            · split at hlk
              · cases hlk
                exact ⟨rfl, rfl, rfl⟩
              · cases hlk
      simp [hfn.1, hfn.2.1, hfn.2.2]

theorem ensurePatient_window (s : DetectorState) (pid : String) :
    (ensurePatient s pid).window_size = s.window_size := by
  unfold ensurePatient
  split <;> rfl

theorem ensurePatient_lookup_self (s : DetectorState) (pid : String) :
    (ensurePatient s pid).patient_data.lookup pid
      = some ((s.patient_data.lookup pid).getD initPatient) := by
  unfold ensurePatient
  by_cases h : (s.patient_data.lookup pid).isSome
  · rw [if_pos h]
    obtain ⟨v, hv⟩ := Option.isSome_iff_exists.mp h
    simp [hv]
  · rw [if_neg h]
    have hn := Option.not_isSome_iff_eq_none.mp h
    simp [lookup_append_single_self _ _ _ hn, hn]

theorem ensurePatient_lookup_ne (s : DetectorState) (pid q : String) (hq : q ≠ pid) :
    (ensurePatient s pid).patient_data.lookup q = s.patient_data.lookup q := by
  unfold ensurePatient
  split
  · rfl
  · simpa using lookup_append_single_ne s.patient_data pid q initPatient hq

/-- `detect_drift` keeps the window size, touches no other patient's
entry, and its effect on the call's patient's buffered streams is
exactly one `_update_patient_data` step. -/
theorem detect_drift_state_spec (ext : DetectorExternals) (s : DetectorState)
    (features : List ℚ) (prediction : ℤ) (pid method : String) (now : ℕ) :
    (detect_drift ext s features prediction pid method now).2.window_size = s.window_size
    ∧ (∀ q, q ≠ pid →
        (detect_drift ext s features prediction pid method now).2.patient_data.lookup q
          = s.patient_data.lookup q)
    ∧ (∃ p2,
        (detect_drift ext s features prediction pid method now).2.patient_data.lookup pid
          = some p2
        ∧ p2.features = (update_patient_data s.window_size
            ((s.patient_data.lookup pid).getD initPatient) features prediction now).features
        ∧ p2.predictions = (update_patient_data s.window_size
            ((s.patient_data.lookup pid).getD initPatient) features prediction now).predictions
        ∧ p2.timestamps = (update_patient_data s.window_size
            ((s.patient_data.lookup pid).getD initPatient) features prediction now).timestamps) := by
  simp only [detect_drift, ensurePatient_window, ensurePatient_lookup_self, Option.getD_some]
  by_cases hwin : (update_patient_data s.window_size
      ((s.patient_data.lookup pid).getD initPatient) features prediction now).features.length
      < s.window_size
  · rw [if_pos hwin]
    refine ⟨rfl, ?_, ?_⟩
    · intro q hq
      simp only []
      rw [lookup_dictInsert_ne _ _ _ _ hq, ensurePatient_lookup_ne s pid q hq]
    · exact ⟨_, lookup_dictInsert_self _ _ _, rfl, rfl, rfl⟩
  · rw [if_neg hwin]
    obtain ⟨hbf, hbp, hbt⟩ := dispatchMethod_buffer ext s.window_size
      (ensurePatient s pid).threshold method (update_patient_data s.window_size
        ((s.patient_data.lookup pid).getD initPatient) features prediction now)
    by_cases hdet : (dispatchMethod ext s.window_size (ensurePatient s pid).threshold method
        (update_patient_data s.window_size
          ((s.patient_data.lookup pid).getD initPatient) features prediction now)).1.drift_detected
    · rw [if_pos hdet]
      refine ⟨rfl, ?_, ?_⟩
      · intro q hq
        simp only [update_detection_history]
        rw [lookup_dictInsert_ne _ _ _ _ hq, lookup_dictInsert_ne _ _ _ _ hq,
          ensurePatient_lookup_ne s pid q hq]
      · simp only [update_detection_history]
        refine Exists.intro _ (And.intro (lookup_dictInsert_self _ _ _) ?_)
        exact ⟨hbf, hbp, hbt⟩
    · rw [if_neg hdet]
      refine ⟨rfl, ?_, ?_⟩
      · intro q hq
        simp only [update_detection_history]
        rw [lookup_dictInsert_ne _ _ _ _ hq, ensurePatient_lookup_ne s pid q hq]
      · simp only [update_detection_history]
        refine Exists.intro _ (And.intro (lookup_dictInsert_self _ _ _) ?_)
        exact ⟨hbf, hbp, hbt⟩

theorem detect_drift_inv (ext : DetectorExternals) (st : DetectorState) (c : DetectCall)
    (pid : String) (hw : 1 ≤ st.window_size) (obs : List DetectCall)
    (hinv : BufferInv st pid obs) :
    BufferInv (detect_drift ext st c.features c.prediction c.patient_id c.method c.now).2 pid
      (obs ++ if c.patient_id = pid then [c] else []) := by
  obtain ⟨hwnd, hother, p2, hp2, hf, hp, ht⟩ :=
    detect_drift_state_spec ext st c.features c.prediction c.patient_id c.method c.now
  by_cases hpid : c.patient_id = pid
  · subst hpid
    rw [if_pos rfl]
    have hstart : ∃ k, k ≤ obs.length
        ∧ ((st.patient_data.lookup c.patient_id).getD initPatient).features
            = (obs.map (fun c => c.features)).drop k
        ∧ ((st.patient_data.lookup c.patient_id).getD initPatient).predictions
            = (obs.map (fun c => c.prediction)).drop k
        ∧ ((st.patient_data.lookup c.patient_id).getD initPatient).timestamps
            = (obs.map (fun c => c.now)).drop k := by
      rcases hold : st.patient_data.lookup c.patient_id with _ | pOld
      · have hobs := hinv.1 hold
        subst hobs
        exact ⟨0, by simp, by simp [initPatient], by simp [initPatient], by simp [initPatient]⟩
      · obtain ⟨hlen, k, hk, h1, h2, h3⟩ := hinv.2 pOld hold
        exact ⟨k, by simpa using hk, by simpa using h1, by simpa using h2, by simpa using h3⟩
    obtain ⟨k, hk, h1, h2, h3⟩ := hstart
    obtain ⟨k2, hk2, g1, g2, g3, glen⟩ := update_patient_data_suffix st.window_size hw
      ((st.patient_data.lookup c.patient_id).getD initPatient)
      (obs.map (fun c => c.features)) (obs.map (fun c => c.prediction))
      (obs.map (fun c => c.now)) k (by simpa using hk) (by simp) (by simp)
      h1 h2 h3 c.features c.prediction c.now
    constructor
    · intro hnone
      rw [hp2] at hnone
      cases hnone
    · intro p hp'
      rw [hp2] at hp'
      cases hp'
      refine ⟨by rw [hf, hwnd]; exact glen, k2, ?_, ?_, ?_, ?_⟩
      · simpa using hk2
      · rw [hf, g1]
        simp
      · rw [hp, g2]
        simp
      · rw [ht, g3]
        simp
  · rw [if_neg hpid, List.append_nil]
    have hl := hother pid (fun h => hpid h.symm)
    constructor
    · intro hnone
      rw [hl] at hnone
      exact hinv.1 hnone
    · intro p hp'
      rw [hl] at hp'
      obtain ⟨hlen, hk⟩ := hinv.2 p hp'
      exact ⟨by rw [hwnd]; exact hlen, hk⟩

theorem runDetects_window (ext : DetectorExternals) (calls : List DetectCall)
    (st : DetectorState) :
    (runDetects ext st calls).window_size = st.window_size := by
  induction calls generalizing st with
  | nil => rfl
  | cons c rest ih =>
      show (runDetects ext _ rest).window_size = _
      rw [ih]
      exact (detect_drift_state_spec ext st c.features c.prediction c.patient_id
        c.method c.now).1

theorem runDetects_inv (ext : DetectorExternals) (calls : List DetectCall)
    (st : DetectorState) (pid : String) (hw : 1 ≤ st.window_size)
    (obs : List DetectCall) (hinv : BufferInv st pid obs) :
    BufferInv (runDetects ext st calls) pid
      (obs ++ calls.filter (fun c => c.patient_id = pid)) := by
  induction calls generalizing st obs with
  | nil => simpa [runDetects] using hinv
  | cons c rest ih =>
      have hstep := detect_drift_inv ext st c pid hw obs hinv
      have hw1 : 1 ≤ (detect_drift ext st c.features c.prediction c.patient_id
          c.method c.now).2.window_size := by
        rw [(detect_drift_state_spec ext st c.features c.prediction c.patient_id
          c.method c.now).1]
        exact hw
      have hrec := ih _ hw1 _ hstep
      show BufferInv (runDetects ext _ rest) pid _
      by_cases hpid : c.patient_id = pid
      · simpa [runDetects, List.filter_cons, hpid, List.append_assoc] using hrec
      · simpa [runDetects, List.filter_cons, hpid] using hrec

/-- C5.  After every `detect_drift` call (equivalently, after any
sequence of calls to a freshly initialised detector), the entity's
buffered observation streams — features, predictions and timestamps —
have length at most `2 * window_size` and consist of the most recent
observations for that entity: they are a common suffix of the full
per-entity observation stream, the oldest observations having been
dropped first. -/
theorem detector_buffer_capped (ext : DetectorExternals) (w : ℕ) (τ : ℚ)
    (calls : List DetectCall) (pid : String) (hw : 1 ≤ w) :
    ((runDetects ext (initDetector w τ) calls).patient_data.lookup pid = none →
      calls.filter (fun c => c.patient_id = pid) = [])
    ∧ ∀ p, (runDetects ext (initDetector w τ) calls).patient_data.lookup pid = some p →
        p.features.length ≤ 2 * w
        ∧ ∃ k, k ≤ (calls.filter (fun c => c.patient_id = pid)).length
          ∧ p.features
              = ((calls.filter (fun c => c.patient_id = pid)).map (fun c => c.features)).drop k
          ∧ p.predictions
              = ((calls.filter (fun c => c.patient_id = pid)).map (fun c => c.prediction)).drop k
          ∧ p.timestamps
              = ((calls.filter (fun c => c.patient_id = pid)).map (fun c => c.now)).drop k := by
  have hbase : BufferInv (initDetector w τ) pid [] := by
    constructor
    · intro _
      rfl
    · intro p hp
      simp [initDetector, List.lookup] at hp
  have h := runDetects_inv ext calls (initDetector w τ) pid hw [] hbase
  have hwnd := runDetects_window ext calls (initDetector w τ)
  rw [List.nil_append] at h
  obtain ⟨h1, h2⟩ := h
  refine ⟨h1, ?_⟩
  intro p hp
  obtain ⟨hlen, hk⟩ := h2 p hp
  rw [hwnd] at hlen
  exact ⟨hlen, hk⟩

/-- Witness for C5: one `"auto"` call on a fresh window-1 detector. -/
theorem detector_buffer_capped_witness :
    (1 ≤ 1)
    ∧ (((runDetects trivialExternals (initDetector 1 (1/20))
          [⟨[2], 1, "p", "auto", 0⟩]).patient_data.lookup "p" = none →
        ([⟨[2], 1, "p", "auto", 0⟩] : List DetectCall).filter
          (fun c => c.patient_id = "p") = [])
      ∧ ∀ p, (runDetects trivialExternals (initDetector 1 (1/20))
            [⟨[2], 1, "p", "auto", 0⟩]).patient_data.lookup "p" = some p →
          p.features.length ≤ 2 * 1
          ∧ ∃ k, k ≤ (([⟨[2], 1, "p", "auto", 0⟩] : List DetectCall).filter
                (fun c => c.patient_id = "p")).length
            ∧ p.features = ((([⟨[2], 1, "p", "auto", 0⟩] : List DetectCall).filter
                  (fun c => c.patient_id = "p")).map (fun c => c.features)).drop k
            ∧ p.predictions = ((([⟨[2], 1, "p", "auto", 0⟩] : List DetectCall).filter
                  (fun c => c.patient_id = "p")).map (fun c => c.prediction)).drop k
            ∧ p.timestamps = ((([⟨[2], 1, "p", "auto", 0⟩] : List DetectCall).filter
                  (fun c => c.patient_id = "p")).map (fun c => c.now)).drop k) :=
  ⟨Nat.le_refl 1,
   detector_buffer_capped trivialExternals 1 (1/20) [⟨[2], 1, "p", "auto", 0⟩] "p"
     (Nat.le_refl 1)⟩

/-! ### Structure of the weighted accumulation loops -/

theorem lookup_map_values {β γ : Type} (g : β → γ) (l : List (String × β)) (k : String) :
    (l.map (fun kv => (kv.1, g kv.2))).lookup k = (l.lookup k).map g := by
  induction l with
  | nil => simp
  | cons kv rest ih =>
      by_cases h : k = kv.1
      · simp [List.lookup, h]
      · have hb : (k == kv.1) = false := beq_eq_false_iff_ne.mpr h
        simp [List.lookup, hb, ih]

theorem keyList_map_values {β γ : Type} (g : β → γ) (l : List (String × β)) :
    keyList (l.map (fun kv => (kv.1, g kv.2))) = keyList l := by
  simp [keyList, List.map_map]

theorem fst_mem_keyList {β : Type} {kv : String × β} {l : List (String × β)}
    (h : kv ∈ l) : kv.1 ∈ keyList l :=
  List.mem_map.mpr ⟨kv, h, rfl⟩

theorem lookup_mem_of_ne_none {β : Type} (l : List (String × β)) (k : String)
    (h : k ∈ keyList l) : (l.lookup k).isSome :=
  (lookup_isSome_iff_mem_keyList l k).mpr h

/-- `accumClient` over a map whose keys are all already present: the
key list is unchanged and each present key accumulates `w • v`. -/
theorem accumClient_spec (w : ℚ) (m : ParamMap) (hnd : (keyList m).Nodup) :
    ∀ avg : ParamMap, (∀ kv ∈ m, (avg.lookup kv.1).isSome) →
      keyList (accumClient avg w m) = keyList avg
      ∧ ∀ k, (accumClient avg w m).lookup k
          = match m.lookup k with
            | some v => (avg.lookup k).map (fun a => addVec a (smulVec w v))
            | none => avg.lookup k := by
  induction m with
  | nil =>
      intro avg _
      exact ⟨rfl, fun k => by simp [accumClient]⟩
  | cons kv rest ih =>
      intro avg hpres
      obtain ⟨a, ha⟩ := Option.isSome_iff_exists.mp (hpres kv (List.mem_cons_self kv rest))
      have hstep : accumAdd avg kv.1 kv.2 (smulVec w kv.2)
          = updateVal kv.1 (fun cur => addVec cur (smulVec w kv.2)) avg := by
        unfold accumAdd
        rw [ha]
      have hacc : accumClient avg w (kv :: rest)
          = accumClient (updateVal kv.1 (fun cur => addVec cur (smulVec w kv.2)) avg) w rest := by
        simp only [accumClient, List.foldl_cons, hstep]
      have hnd1 : (keyList rest).Nodup := (List.nodup_cons.mp (by simpa [keyList] using hnd)).2
      have hnotmem : kv.1 ∉ keyList rest := (List.nodup_cons.mp (by simpa [keyList] using hnd)).1
      have hpres1 : ∀ kv' ∈ rest,
          ((updateVal kv.1 (fun cur => addVec cur (smulVec w kv.2)) avg).lookup kv'.1).isSome := by
        intro kv' hkv'
        have := hpres kv' (List.mem_cons_of_mem kv hkv')
        rw [lookup_isSome_iff_mem_keyList] at this ⊢
        rwa [keyList_updateVal]
      obtain ⟨ihk, ihl⟩ := ih hnd1 _ hpres1
      constructor
      · rw [hacc, ihk, keyList_updateVal]
      · intro k
        rw [hacc, ihl k]
        by_cases hk : k = kv.1
        · subst hk
          have hrest : rest.lookup kv.1 = none := by
            rcases h : rest.lookup kv.1 with _ | v
            · rfl
            · exact absurd ((lookup_isSome_iff_mem_keyList rest kv.1).mp (by simp [h]))
                hnotmem
          rw [hrest]
          simp only [List.lookup, beq_self_eq_true]
          rw [lookup_updateVal_self, ha]
        · have hb : (k == kv.1) = false := beq_eq_false_iff_ne.mpr hk
          simp only [List.lookup, hb]
          rw [lookup_updateVal_ne _ _ _ _ hk]

/-- `accumClient` over a map whose keys are all fresh: each entry is
appended, initialised from `zeros_like` plus the contribution. -/
theorem accumClient_disjoint (w : ℚ) (m : ParamMap) (hnd : (keyList m).Nodup) :
    ∀ avg : ParamMap, (∀ kv ∈ m, avg.lookup kv.1 = none) →
      accumClient avg w m
        = avg ++ m.map (fun kv => (kv.1, addVec (zerosLike kv.2) (smulVec w kv.2))) := by
  induction m with
  | nil =>
      intro avg _
      simp [accumClient]
  | cons kv rest ih =>
      intro avg hdisj
      have hnone := hdisj kv (List.mem_cons_self kv rest)
      have hstep : accumAdd avg kv.1 kv.2 (smulVec w kv.2)
          = avg ++ [(kv.1, addVec (zerosLike kv.2) (smulVec w kv.2))] := by
        unfold accumAdd
        rw [hnone]
      have hnd1 : (keyList rest).Nodup := (List.nodup_cons.mp (by simpa [keyList] using hnd)).2
      have hnotmem : kv.1 ∉ keyList rest := (List.nodup_cons.mp (by simpa [keyList] using hnd)).1
      have hdisj1 : ∀ kv' ∈ rest,
          (avg ++ [(kv.1, addVec (zerosLike kv.2) (smulVec w kv.2))]).lookup kv'.1 = none := by
        intro kv' hkv'
        have hne : kv'.1 ≠ kv.1 := by
          intro he
          exact hnotmem (he ▸ fst_mem_keyList hkv')
        rw [lookup_append_single_ne _ _ _ _ hne]
        exact hdisj kv' (List.mem_cons_of_mem kv hkv')
      have : accumClient avg w (kv :: rest)
          = accumClient (avg ++ [(kv.1, addVec (zerosLike kv.2) (smulVec w kv.2))]) w rest := by
        simp only [accumClient, List.foldl_cons, hstep]
      rw [this, ih hnd1 _ hdisj1]
      simp

/-- Folding whole clients over an accumulator that already holds every
key: per key, the values fold as `accumVal`. -/
theorem foldClients_spec (ks : List String) (hnd : ks.Nodup) (rest : List (ℚ × ParamMap))
    (hrest : ∀ wm ∈ rest, keyList wm.2 = ks) :
    ∀ avg : ParamMap, keyList avg = ks →
      keyList (rest.foldl (fun a wm => accumClient a wm.1 wm.2) avg) = ks
      ∧ ∀ k a, avg.lookup k = some a →
          (rest.foldl (fun a wm => accumClient a wm.1 wm.2) avg).lookup k
            = some (accumVal rest k a) := by
  induction rest with
  | nil =>
      intro avg hkeys
      exact ⟨hkeys, fun k a ha => by simpa [accumVal] using ha⟩
  | cons wm rest' ih =>
      intro avg hkeys
      have hwm : keyList wm.2 = ks := hrest wm (List.mem_cons_self wm rest')
      have hndm : (keyList wm.2).Nodup := hwm ▸ hnd
      have hpres : ∀ kv ∈ wm.2, (avg.lookup kv.1).isSome := by
        intro kv hkv
        exact lookup_mem_of_ne_none avg kv.1
          (hkeys ▸ hwm ▸ fst_mem_keyList hkv)
      obtain ⟨hk1, hl1⟩ := accumClient_spec wm.1 wm.2 hndm avg hpres
      have hrest' : ∀ wm' ∈ rest', keyList wm'.2 = ks :=
        fun wm' h => hrest wm' (List.mem_cons_of_mem wm h)
      obtain ⟨hk2, hl2⟩ := ih hrest' (accumClient avg wm.1 wm.2) (hk1.trans hkeys)
      refine ⟨by simpa using hk2, ?_⟩
      intro k a ha
      have hmem : k ∈ keyList wm.2 := by
        rw [hwm, ← hkeys]
        exact (lookup_isSome_iff_mem_keyList avg k).mp (by simp [ha])
      obtain ⟨v, hv⟩ := Option.isSome_iff_exists.mp (lookup_mem_of_ne_none wm.2 k hmem)
      have hstep : (accumClient avg wm.1 wm.2).lookup k
          = some (addVec a (smulVec wm.1 v)) := by
        rw [hl1 k, hv, ha]
        rfl
      have := hl2 k (addVec a (smulVec wm.1 v)) hstep
      rw [List.foldl_cons]
      rw [this]
      simp [accumVal, hv]

/-- Full characterisation of the weighted accumulation: key list and
order come from the first client, and each key's value is the folded
sum of per-client contributions starting from `zeros_like`. -/
theorem weightedAccum_spec (ks : List String) (hnd : ks.Nodup) (w0 : ℚ) (m0 : ParamMap)
    (rest : List (ℚ × ParamMap)) (h0 : keyList m0 = ks)
    (hrest : ∀ wm ∈ rest, keyList wm.2 = ks) :
    keyList (weightedAccum ((w0, m0) :: rest)) = ks
    ∧ ∀ k v0, m0.lookup k = some v0 →
        (weightedAccum ((w0, m0) :: rest)).lookup k
          = some (accumVal rest k (addVec (zerosLike v0) (smulVec w0 v0))) := by
  have hfirst : accumClient [] w0 m0
      = m0.map (fun kv => (kv.1, addVec (zerosLike kv.2) (smulVec w0 kv.2))) := by
    simpa using accumClient_disjoint w0 m0 (h0 ▸ hnd) [] (fun kv _ => rfl)
  have hkeys1 : keyList (accumClient [] w0 m0) = ks := by
    rw [hfirst,
      keyList_map_values (fun v => addVec (zerosLike v) (smulVec w0 v)) m0, h0]
  have hacc : weightedAccum ((w0, m0) :: rest)
      = rest.foldl (fun a wm => accumClient a wm.1 wm.2) (accumClient [] w0 m0) := by
    simp [weightedAccum]
  obtain ⟨hk, hl⟩ := foldClients_spec ks hnd rest hrest (accumClient [] w0 m0) hkeys1
  refine ⟨by rw [hacc]; exact hk, ?_⟩
  intro k v0 hv0
  have hl1 : (accumClient [] w0 m0).lookup k
      = some (addVec (zerosLike v0) (smulVec w0 v0)) := by
    rw [hfirst,
      lookup_map_values (fun v => addVec (zerosLike v) (smulVec w0 v)) m0 k, hv0]
    rfl
  rw [hacc]
  exact hl k _ hl1

/-! ### Coordinate-level facts -/

theorem getD_zipWith (f : ℚ → ℚ → ℚ) (a b : Vec) (c : ℕ)
    (ha : c < a.length) (hb : c < b.length) :
    (List.zipWith f a b).getD c 0 = f (a.getD c 0) (b.getD c 0) := by
  induction a generalizing b c with
  | nil => simp at ha
  | cons x xs ih =>
      cases b with
      | nil => simp at hb
      | cons y ys =>
          cases c with
          | zero => simp [List.getD]
          | succ c =>
              simpa [List.getD] using ih ys c (by simpa using ha) (by simpa using hb)

theorem getD_smulVec (w : ℚ) (v : Vec) (c : ℕ) (hc : c < v.length) :
    (smulVec w v).getD c 0 = w * v.getD c 0 := by
  induction v generalizing c with
  | nil => simp at hc
  | cons x xs ih =>
      cases c with
      | zero => simp [smulVec, List.getD]
      | succ c => simpa [smulVec, List.getD] using ih c (by simpa using hc)

theorem getD_zerosLike (v : Vec) (c : ℕ) : (zerosLike v).getD c 0 = 0 := by
  induction v generalizing c with
  | nil => simp [zerosLike, List.getD]
  | cons x xs ih =>
      cases c with
      | zero => simp [zerosLike, List.getD]
      | succ c => simp [zerosLike, List.getD]

theorem length_accumVal (k : String) (L : ℕ) (rest : List (ℚ × ParamMap)) :
    ∀ init : Vec, init.length = L →
      (∀ wm ∈ rest, ((wm.2.lookup k).getD []).length = L) →
      (accumVal rest k init).length = L := by
  induction rest with
  | nil =>
      intro init h _
      rw [show accumVal [] k init = init from rfl]
      exact h
  | cons wm rest' ih =>
      intro init hinit hall
      have hv := hall wm (List.mem_cons_self wm rest')
      have hstep : (addVec init (smulVec wm.1 ((wm.2.lookup k).getD []))).length = L := by
        simp [addVec, smulVec, hinit, hv]
      have := ih _ hstep (fun wm' h => hall wm' (List.mem_cons_of_mem wm h))
      simpa [accumVal] using this

/-- Per coordinate, the accumulated value is the initial coordinate
plus the weighted sum of the clients' coordinates. -/
theorem accumVal_coord (k : String) (L : ℕ) (rest : List (ℚ × ParamMap)) :
    ∀ init : Vec, init.length = L →
      (∀ wm ∈ rest, ((wm.2.lookup k).getD []).length = L) →
      ∀ c, c < L → (accumVal rest k init).getD c 0
        = init.getD c 0
          + (rest.map (fun wm => wm.1 * (((wm.2.lookup k).getD []).getD c 0))).sum := by
  induction rest with
  | nil =>
      intro init _ _ c _
      simp [accumVal]
  | cons wm rest' ih =>
      intro init hinit hall c hc
      have hv := hall wm (List.mem_cons_self wm rest')
      have hstep : (addVec init (smulVec wm.1 ((wm.2.lookup k).getD []))).length = L := by
        simp [addVec, smulVec, hinit, hv]
      have hrec := ih _ hstep (fun wm' h => hall wm' (List.mem_cons_of_mem wm h)) c hc
      have hstepval : (addVec init (smulVec wm.1 ((wm.2.lookup k).getD []))).getD c 0
          = init.getD c 0 + wm.1 * (((wm.2.lookup k).getD []).getD c 0) := by
        rw [addVec, getD_zipWith _ _ _ c (by omega) (by simp [smulVec, hv]; omega),
          getD_smulVec _ _ c (by omega)]
      have hfold : accumVal (wm :: rest') k init
          = accumVal rest' k (addVec init (smulVec wm.1 ((wm.2.lookup k).getD []))) := by
        simp [accumVal]
      rw [hfold, hrec, hstepval, List.map_cons, List.sum_cons]
      ring

theorem exists_min_list (l : List ℚ) (h : l ≠ []) : ∃ a ∈ l, ∀ b ∈ l, a ≤ b := by
  induction l with
  | nil => exact absurd rfl h
  | cons x xs ih =>
      rcases eq_or_ne xs [] with hxs | hxs
      · subst hxs
        exact ⟨x, List.mem_cons_self x [], by intro b hb; simp at hb; simp [hb]⟩
      · obtain ⟨a, ha, hall⟩ := ih hxs
        by_cases hxa : x ≤ a
        · refine ⟨x, List.mem_cons_self x xs, ?_⟩
          intro b hb
          rcases List.mem_cons.mp hb with rfl | hb
          · exact le_refl b
          · exact le_trans hxa (hall b hb)
        · refine ⟨a, List.mem_cons_of_mem x ha, ?_⟩
          intro b hb
          rcases List.mem_cons.mp hb with rfl | hb
          · exact le_of_not_le hxa
          · exact hall b hb

theorem exists_max_list (l : List ℚ) (h : l ≠ []) : ∃ a ∈ l, ∀ b ∈ l, b ≤ a := by
  induction l with
  | nil => exact absurd rfl h
  | cons x xs ih =>
      rcases eq_or_ne xs [] with hxs | hxs
      · subst hxs
        exact ⟨x, List.mem_cons_self x [], by intro b hb; simp at hb; simp [hb]⟩
      · obtain ⟨a, ha, hall⟩ := ih hxs
        by_cases hxa : a ≤ x
        · refine ⟨x, List.mem_cons_self x xs, ?_⟩
          intro b hb
          rcases List.mem_cons.mp hb with rfl | hb
          · exact le_refl b
          · exact le_trans (hall b hb) hxa
        · refine ⟨a, List.mem_cons_of_mem x ha, ?_⟩
          intro b hb
          rcases List.mem_cons.mp hb with rfl | hb
          · exact le_of_not_le hxa
          · exact hall b hb

theorem weighted_sum_le (clients : List (ℚ × ParamMap)) (k : String) (c : ℕ) (B : ℚ)
    (hw : ∀ wm ∈ clients, 0 ≤ wm.1)
    (hx : ∀ wm ∈ clients, ((wm.2.lookup k).getD []).getD c 0 ≤ B) :
    (clients.map (fun wm => wm.1 * (((wm.2.lookup k).getD []).getD c 0))).sum
      ≤ (clients.map (fun wm => wm.1)).sum * B := by
  induction clients with
  | nil => simp
  | cons wm rest ih =>
      simp only [List.map_cons, List.sum_cons, add_mul]
      refine add_le_add ?_ (ih (fun e h => hw e (List.mem_cons_of_mem wm h))
        (fun e h => hx e (List.mem_cons_of_mem wm h)))
      exact mul_le_mul_of_nonneg_left (hx wm (List.mem_cons_self wm rest))
        (hw wm (List.mem_cons_self wm rest))

theorem weighted_sum_ge (clients : List (ℚ × ParamMap)) (k : String) (c : ℕ) (B : ℚ)
    (hw : ∀ wm ∈ clients, 0 ≤ wm.1)
    (hx : ∀ wm ∈ clients, B ≤ ((wm.2.lookup k).getD []).getD c 0) :
    (clients.map (fun wm => wm.1)).sum * B
      ≤ (clients.map (fun wm => wm.1 * (((wm.2.lookup k).getD []).getD c 0))).sum := by
  induction clients with
  | nil => simp
  | cons wm rest ih =>
      simp only [List.map_cons, List.sum_cons, add_mul]
      refine add_le_add ?_ (ih (fun e h => hw e (List.mem_cons_of_mem wm h))
        (fun e h => hx e (List.mem_cons_of_mem wm h)))
      exact mul_le_mul_of_nonneg_left (hx wm (List.mem_cons_self wm rest))
        (hw wm (List.mem_cons_self wm rest))

theorem sum_map_div (l : List ℕ) (d : ℚ) :
    (l.map (fun s : ℕ => (s : ℚ) / d)).sum = (l.map (fun s : ℕ => (s : ℚ))).sum / d := by
  induction l with
  | nil => simp
  | cons x xs ih => simp [ih, add_div]

/-! ### C4: FedAvg output is a convex combination -/

/-- C4.  For every non-empty list of client `ParameterMap`s sharing
identical keys (given in a common order, as produced by
`state_dict()`), matching tensor shapes, and sample counts each at
least 1, `fedavg`'s output at each key and coordinate lies between the
minimum (`lo`) and the maximum (`hi`) of the clients' values at that
key and coordinate. -/
theorem fedavg_convex_bounds (cw : List ParamMap) (cs : List ℕ) (ks : List String)
    (hne : cw ≠ []) (hlen : cs.length = cw.length) (hpos : ∀ s ∈ cs, 1 ≤ s)
    (hkeys : ∀ m ∈ cw, keyList m = ks) (hnd : ks.Nodup)
    (hshape : ∀ m ∈ cw, ∀ m' ∈ cw, ∀ k ∈ ks,
      ((m.lookup k).getD []).length = ((m'.lookup k).getD []).length)
    (k : String) (vout : Vec) (hout : (fedavg cw cs).lookup k = some vout)
    (c : ℕ) (hc : c < vout.length) :
    ∃ lo ∈ cw.map (fun m => ((m.lookup k).getD []).getD c 0),
      ∃ hi ∈ cw.map (fun m => ((m.lookup k).getD []).getD c 0),
        (∀ x ∈ cw.map (fun m => ((m.lookup k).getD []).getD c 0), lo ≤ x ∧ x ≤ hi)
        ∧ lo ≤ vout.getD c 0 ∧ vout.getD c 0 ≤ hi := by
  rcases cw with _ | ⟨m0, cwt⟩
  · exact absurd rfl hne
  rcases cs with _ | ⟨s0, cst⟩
  · simp at hlen
  have hm0 : m0 ∈ m0 :: cwt := List.mem_cons_self m0 cwt
  have htotpos : (0 : ℚ) < (((s0 :: cst).sum : ℕ) : ℚ) := by
    have h1 : 1 ≤ s0 := hpos s0 (List.mem_cons_self s0 cst)
    have : 1 ≤ (s0 :: cst).sum := le_trans h1 (by simp [List.sum_cons])
    exact_mod_cast lt_of_lt_of_le Nat.zero_lt_one (by exact_mod_cast this)
  set total : ℚ := (((s0 :: cst).sum : ℕ) : ℚ) with htotal
  have hw0 : (fedavg (m0 :: cwt) (s0 :: cst))
      = weightedAccum (((s0 : ℚ) / total, m0)
          :: (cwt.zip cst).map (fun p => ((p.2 : ℚ) / total, p.1))) := by
    simp only [fedavg, List.zip_cons_cons, List.map_cons]
  set rest : List (ℚ × ParamMap) := (cwt.zip cst).map (fun p => ((p.2 : ℚ) / total, p.1))
    with hrestdef
  have hrest : ∀ wm ∈ rest, keyList wm.2 = ks := by
    intro wm hwm
    rw [hrestdef] at hwm
    obtain ⟨p, hp, hpe⟩ := List.mem_map.mp hwm
    have : p.1 ∈ cwt := (List.of_mem_zip hp).1
    rw [← hpe]
    exact hkeys p.1 (List.mem_cons_of_mem m0 this)
  obtain ⟨hspec1, hspec2⟩ := weightedAccum_spec ks hnd ((s0 : ℚ) / total) m0 rest
    (hkeys m0 hm0) hrest
  have hkmem : k ∈ ks := by
    rw [← hspec1]
    refine (lookup_isSome_iff_mem_keyList _ k).mp ?_
    rw [← hw0, hout]
    rfl
  obtain ⟨v0, hv0⟩ := Option.isSome_iff_exists.mp
    (lookup_mem_of_ne_none m0 k ((hkeys m0 hm0).symm ▸ hkmem))
  have hlk := hspec2 k v0 hv0
  rw [← hw0, hout] at hlk
  have hvout : vout = accumVal rest k (addVec (zerosLike v0) (smulVec ((s0 : ℚ) / total) v0)) :=
    Option.some.inj hlk
  set L := v0.length with hL
  have hinitlen : (addVec (zerosLike v0) (smulVec ((s0 : ℚ) / total) v0)).length = L := by
    simp [addVec, zerosLike, smulVec]
  have hallshape : ∀ wm ∈ rest, ((wm.2.lookup k).getD []).length = L := by
    intro wm hwm
    rw [hrestdef] at hwm
    obtain ⟨p, hp, hpe⟩ := List.mem_map.mp hwm
    have hmem : p.1 ∈ cwt := (List.of_mem_zip hp).1
    have := hshape p.1 (List.mem_cons_of_mem m0 hmem) m0 hm0 k hkmem
    rw [← hpe]
    simpa [hv0] using this
  have hvoutlen : vout.length = L := by
    rw [hvout]
    exact length_accumVal k L rest _ hinitlen hallshape
  have hcL : c < L := hvoutlen ▸ hc
  have hinitval : (addVec (zerosLike v0) (smulVec ((s0 : ℚ) / total) v0)).getD c 0
      = ((s0 : ℚ) / total) * (((m0.lookup k).getD []).getD c 0) := by
    rw [addVec, getD_zipWith _ _ _ c (by simp [zerosLike]; omega) (by simp [smulVec]; omega),
      getD_zerosLike, getD_smulVec _ _ c (by omega), hv0]
    simp
  have hval : vout.getD c 0
      = ((((s0 : ℚ) / total, m0) :: rest).map
          (fun wm => wm.1 * (((wm.2.lookup k).getD []).getD c 0))).sum := by
    rw [hvout, accumVal_coord k L rest _ hinitlen hallshape c hcL, hinitval,
      List.map_cons, List.sum_cons]
  have hwsum : ((((s0 : ℚ) / total, m0) :: rest).map (fun wm => wm.1)).sum = 1 := by
    have hzip : ((s0 : ℚ) / total, m0) :: rest
        = ((m0 :: cwt).zip (s0 :: cst)).map (fun p => ((p.2 : ℚ) / total, p.1)) := by
      simp [hrestdef]
    rw [hzip, List.map_map]
    have hcomp : ((fun wm : ℚ × ParamMap => wm.1)
          ∘ (fun p : ParamMap × ℕ => ((p.2 : ℚ) / total, p.1)))
        = (fun s : ℕ => (s : ℚ) / total) ∘ Prod.snd := rfl
    rw [hcomp, ← List.map_map, List.map_snd_zip _ _ (le_of_eq hlen), sum_map_div,
      ← Nat.cast_list_sum]
    exact div_self (ne_of_gt htotpos)
  have hwnonneg : ∀ wm ∈ (((s0 : ℚ) / total, m0) :: rest), 0 ≤ wm.1 := by
    intro wm hwm
    rcases List.mem_cons.mp hwm with rfl | hwm
    · exact div_nonneg (by positivity) (le_of_lt htotpos)
    · rw [hrestdef] at hwm
      obtain ⟨p, _, hpe⟩ := List.mem_map.mp hwm
      rw [← hpe]
      exact div_nonneg (by positivity) (le_of_lt htotpos)
  have hmemcw : ∀ wm ∈ (((s0 : ℚ) / total, m0) :: rest), wm.2 ∈ m0 :: cwt := by
    intro wm hwm
    rcases List.mem_cons.mp hwm with rfl | hwm
    · exact hm0
    · rw [hrestdef] at hwm
      obtain ⟨p, hp, hpe⟩ := List.mem_map.mp hwm
      rw [← hpe]
      exact List.mem_cons_of_mem m0 (List.of_mem_zip hp).1
  have hvalsne : (m0 :: cwt).map (fun m => ((m.lookup k).getD []).getD c 0) ≠ [] := by
    simp
  obtain ⟨lo, hlomem, hloall⟩ := exists_min_list _ hvalsne
  obtain ⟨hi, hhimem, hhiall⟩ := exists_max_list _ hvalsne
  refine ⟨lo, hlomem, hi, hhimem, fun x hx => ⟨hloall x hx, hhiall x hx⟩, ?_, ?_⟩
  · have := weighted_sum_ge (((s0 : ℚ) / total, m0) :: rest) k c lo hwnonneg
      (fun wm hwm => hloall _ (List.mem_map.mpr ⟨wm.2, hmemcw wm hwm, rfl⟩))
    rw [hwsum, one_mul] at this
    rw [hval]
    exact this
  · have := weighted_sum_le (((s0 : ℚ) / total, m0) :: rest) k c hi hwnonneg
      (fun wm hwm => hhiall _ (List.mem_map.mpr ⟨wm.2, hmemcw wm hwm, rfl⟩))
    rw [hwsum, one_mul] at this
    rw [hval]
    exact this

/-- Witness for C4 at the spec's worked example: 3 clients with sample
counts `[100, 100, 200]` and single-key maps `[1], [2], [4]`; FedAvg
yields `0.25·1 + 0.25·2 + 0.5·4 = 2.75`, which lies between 1 and 4. -/
theorem fedavg_convex_bounds_witness :
    (fedavg [[("w", [1])], [("w", [2])], [("w", [4])]] [100, 100, 200]).lookup "w"
      = some [11/4]
    ∧ ∃ lo ∈ ([[("w", [1])], [("w", [2])], [("w", [4])]] : List ParamMap).map
          (fun m => ((m.lookup "w").getD []).getD 0 0),
        ∃ hi ∈ ([[("w", [1])], [("w", [2])], [("w", [4])]] : List ParamMap).map
            (fun m => ((m.lookup "w").getD []).getD 0 0),
          (∀ x ∈ ([[("w", [1])], [("w", [2])], [("w", [4])]] : List ParamMap).map
              (fun m => ((m.lookup "w").getD []).getD 0 0), lo ≤ x ∧ x ≤ hi)
          ∧ lo ≤ ([(11 : ℚ)/4] : Vec).getD 0 0 ∧ ([(11 : ℚ)/4] : Vec).getD 0 0 ≤ hi := by
  have hcomp : (fedavg [[("w", [1])], [("w", [2])], [("w", [4])]]
      [100, 100, 200]).lookup "w" = some [11/4] := by
    norm_num [fedavg, weightedAccum, accumClient, accumAdd, addVec, smulVec,
      zerosLike, List.lookup, updateVal]
  refine ⟨hcomp, ?_⟩
  exact fedavg_convex_bounds [[("w", [1])], [("w", [2])], [("w", [4])]] [100, 100, 200]
    ["w"] (by simp) (by simp) (by decide)
    (by intro m hm; fin_cases hm <;> rfl) (by decide)
    (by intro m hm m' hm' k hk; fin_cases hk; fin_cases hm <;> fin_cases hm' <;> rfl)
    "w" [11/4] hcomp 0 (by decide)

/-! ### C9: FedProx with μ = 0 degenerates to FedAvg -/

theorem proxTerm_zero (v gk : Vec) (h : gk.length = v.length) :
    subVec v (smulVec 0 (subVec v gk)) = v := by
  induction v generalizing gk with
  | nil => simp [subVec, smulVec]
  | cons x xs ih =>
      cases gk with
      | nil => simp at h
      | cons y ys =>
          have := ih ys (by simpa using h)
          simp only [subVec, smulVec, List.zipWith_cons_cons, List.map_cons] at this ⊢
          rw [this]
          norm_num

theorem proxClient_zero (g : ParamMap) (w : ℚ) (m : ParamMap)
    (hg : ∀ kv ∈ m, ∃ gk, g.lookup kv.1 = some gk ∧ gk.length = kv.2.length) :
    ∀ avg, proxClient 0 g w avg m = some (accumClient avg w m) := by
  induction m with
  | nil =>
      intro avg
      simp [proxClient, accumClient]
  | cons kv rest ih =>
      intro avg
      obtain ⟨gk, hgk, hlen⟩ := hg kv (List.mem_cons_self kv rest)
      have hrest : ∀ kv' ∈ rest, ∃ gk', g.lookup kv'.1 = some gk' ∧ gk'.length = kv'.2.length :=
        fun kv' h => hg kv' (List.mem_cons_of_mem kv h)
      simp only [proxClient, accumClient, List.foldlM_cons, List.foldl_cons, hgk,
        Option.bind_eq_bind]
      rw [proxTerm_zero kv.2 gk hlen]
      simpa [proxClient, accumClient] using ih hrest _

theorem foldProx_zero (g : ParamMap) (total : ℚ) (zl : List (ParamMap × ℕ))
    (hg : ∀ p ∈ zl, ∀ kv ∈ p.1, ∃ gk, g.lookup kv.1 = some gk ∧ gk.length = kv.2.length) :
    ∀ init, zl.foldlM (fun avg p => proxClient 0 g ((p.2 : ℚ) / total) avg p.1) init
      = some (zl.foldl (fun avg p => accumClient avg ((p.2 : ℚ) / total) p.1) init) := by
  induction zl with
  | nil =>
      intro init
      rfl
  | cons p rest ih =>
      intro init
      have hp := hg p (List.mem_cons_self p rest)
      have hrest : ∀ p' ∈ rest, ∀ kv ∈ p'.1,
          ∃ gk, g.lookup kv.1 = some gk ∧ gk.length = kv.2.length :=
        fun p' h => hg p' (List.mem_cons_of_mem p h)
      simp only [List.foldlM_cons, List.foldl_cons,
        proxClient_zero g ((p.2 : ℚ) / total) p.1 hp init, Option.bind_eq_bind,
        Option.some_bind]
      exact ih hrest _

/-- C9.  For every list of client maps, sample counts, and previous
global map that contains every client parameter key with a matching
shape, `fedprox` with proximal coefficient `μ = 0` returns exactly the
`fedavg` result (wrapped in `some`: with every `global_weights[key]`
lookup succeeding, no `KeyError` is raised). -/
theorem fedprox_mu_zero_eq_fedavg (cw : List ParamMap) (cs : List ℕ) (g : ParamMap)
    (hg : ∀ m ∈ cw, ∀ kv ∈ m, ∃ gk, g.lookup kv.1 = some gk ∧ gk.length = kv.2.length) :
    fedprox cw cs g 0 = some (fedavg cw cs) := by
  unfold fedprox fedavg weightedAccum
  rw [List.foldl_map]
  exact foldProx_zero g _ (cw.zip cs)
    (fun p hp => hg p.1 (List.of_mem_zip hp).1) []

/-- Witness for C9 on a concrete instance. -/
theorem fedprox_mu_zero_eq_fedavg_witness :
    (∀ m ∈ ([[("w", [1, 2])]] : List ParamMap), ∀ kv ∈ m,
      ∃ gk, (([("w", [3, 3])] : ParamMap).lookup kv.1) = some gk
        ∧ gk.length = kv.2.length)
    ∧ fedprox [[("w", [1, 2])]] [5] [("w", [3, 3])] 0
        = some (fedavg [[("w", [1, 2])]] [5]) := by
  have hg : ∀ m ∈ ([[("w", [1, 2])]] : List ParamMap), ∀ kv ∈ m,
      ∃ gk, (([("w", [3, 3])] : ParamMap).lookup kv.1) = some gk
        ∧ gk.length = kv.2.length := by
    intro m hm kv hkv
    fin_cases hm
    simp only [List.mem_singleton] at hkv
    subst hkv
    exact ⟨[3, 3], rfl, rfl⟩
  exact ⟨hg, fedprox_mu_zero_eq_fedavg [[("w", [1, 2])]] [5] [("w", [3, 3])] hg⟩

/-! ### C1: failed aggregation round -/

/-- C1 (evaluation of the code at the failing input).  At
`mismatchState` the clients' parameter-key sets differ and the
aggregation step raises inside the `try` block (the merged state dict
carries the unexpected key `"extra"`, so `load_state_dict` fails).
`aggregate_updates` then returns the error result and the pending
buffer is kept — but the round counter, incremented as the first
statement of the `try` block, is left advanced by 1, contradicting the
claim that it holds its previous value. -/
theorem aggregate_failure_advances_round :
    (aggregate_updates mismatchState).1 = .error
    ∧ (aggregate_updates mismatchState).2.training_round
        = mismatchState.training_round + 1
    ∧ (aggregate_updates mismatchState).2.client_updates
        = mismatchState.client_updates :=
  ⟨rfl, rfl, rfl⟩

/-! ### C2: quorum behaviour of the coordinator -/

theorem lookup_eq_of_mem_nodup {β : Type} (l : List (String × β))
    (hnd : (keyList l).Nodup) (kv : String × β) (h : kv ∈ l) :
    l.lookup kv.1 = some kv.2 := by
  induction l with
  | nil => cases h
  | cons hd rest ih =>
      rcases List.mem_cons.mp h with rfl | h2
      · simp [List.lookup]
      · have hnotmem : hd.1 ∉ keyList rest :=
          (List.nodup_cons.mp (by simpa [keyList] using hnd)).1
        have hne : kv.1 ≠ hd.1 := by
          intro he
          exact hnotmem (he ▸ fst_mem_keyList h2)
        have hb : (kv.1 == hd.1) = false := beq_eq_false_iff_ne.mpr hne
        simp only [List.lookup, hb]
        exact ih (List.nodup_cons.mp (by simpa [keyList] using hnd)).2 h2

theorem mem_of_lookup_eq_some {β : Type} (l : List (String × β)) (k : String) (v : β)
    (h : l.lookup k = some v) : (k, v) ∈ l := by
  induction l with
  | nil => simp [List.lookup] at h
  | cons hd rest ih =>
      obtain ⟨k2, v2⟩ := hd
      by_cases he : k = k2
      · subst he
        simp [List.lookup] at h
        rw [← h]
        exact List.mem_cons_self _ _
      · have hb : (k == k2) = false := beq_eq_false_iff_ne.mpr he
        simp only [List.lookup, hb] at h
        exact List.mem_cons_of_mem _ (ih h)

theorem mapM_isSome {α β : Type} (f : α → Option β) :
    ∀ l : List α, (∀ x ∈ l, (f x).isSome) → ∃ ys, l.mapM f = some ys := by
  intro l
  induction l with
  | nil => exact fun _ => ⟨[], rfl⟩
  | cons x xs ih =>
      intro h
      obtain ⟨y, hy⟩ := Option.isSome_iff_exists.mp (h x (List.mem_cons_self x xs))
      obtain ⟨ys, hys⟩ := ih (fun a ha => h a (List.mem_cons_of_mem x ha))
      exact ⟨y :: ys, by rw [List.mapM_cons, hy, hys]; rfl⟩

theorem lastOrZero_isSome (o : Option (List ℚ)) (h : o ≠ some []) :
    (lastOrZero o).isSome := by
  rcases o with _ | xs
  · simp [lastOrZero]
  · have hxs : xs ≠ [] := fun he => h (by rw [he])
    simp [lastOrZero, List.getLast?_isSome, hxs]

theorem keyList_length {β : Type} (l : List (String × β)) :
    (keyList l).length = l.length := by
  simp [keyList]

theorem dictInsert_nodup {β : Type} (l : List (String × β)) (k : String) (v : β)
    (hnd : (keyList l).Nodup) : (keyList (dictInsert l k v)).Nodup := by
  by_cases h : (l.lookup k).isSome
  · rw [keyList_dictInsert_present _ _ _ h]
    exact hnd
  · rw [keyList_dictInsert_absent _ _ _ (Option.not_isSome_iff_eq_none.mp h)]
    have hnm : k ∉ keyList l := fun hm => h (lookup_mem_of_ne_none l k hm)
    rw [List.nodup_append]
    exact ⟨hnd, List.nodup_singleton k,
      by simpa [List.disjoint_singleton] using hnm⟩

theorem keyList_dictInsert_subset {β : Type} (l : List (String × β)) (k : String) (v : β) :
    ∀ k' ∈ keyList (dictInsert l k v), k' ∈ keyList l ∨ k' = k := by
  intro k' h
  by_cases hp : (l.lookup k).isSome
  · rw [keyList_dictInsert_present _ _ _ hp] at h
    exact Or.inl h
  · rw [keyList_dictInsert_absent _ _ _ (Option.not_isSome_iff_eq_none.mp hp)] at h
    rcases List.mem_append.mp h with h2 | h2
    · exact Or.inl h2
    · simp at h2
      exact Or.inr h2

/-- Fewer than `min_clients` distinct client ids keep the round counter
fixed: every submission takes the `waiting` branch. -/
theorem runRegisters_round (calls : List RegCall) :
    ∀ (s : ServerState) (S : Finset String),
      (∀ k ∈ keyList s.client_updates, k ∈ S) →
      (keyList s.client_updates).Nodup →
      (S ∪ (calls.map (fun c => c.client_id)).toFinset).card < min_clients →
      (runRegisters s calls).training_round = s.training_round := by
  induction calls with
  | nil =>
      intro s S _ _ _
      rfl
  | cons c rest ih =>
      intro s S hsub hnd hcard
      set l1 := dictInsert s.client_updates c.client_id
        ⟨c.weights, c.metrics, c.metrics.samples_used.getD 0⟩ with hl1
      have hsub1 : ∀ k ∈ keyList l1, k ∈ insert c.client_id S := by
        intro k hk
        rcases keyList_dictInsert_subset _ _ _ k (hl1 ▸ hk) with h | h
        · exact Finset.mem_insert_of_mem (hsub k h)
        · rw [h]
          exact Finset.mem_insert_self _ _
      have hnd1 : (keyList l1).Nodup := hl1 ▸ dictInsert_nodup _ _ _ hnd
      have hcard_eq : insert c.client_id S ∪ (rest.map (fun c => c.client_id)).toFinset
          = S ∪ ((c :: rest).map (fun c => c.client_id)).toFinset := by
        simp [List.toFinset_cons, Finset.insert_union, Finset.union_insert]
      have hsubS : (keyList l1).toFinset ⊆ insert c.client_id S := by
        intro a ha
        exact hsub1 a (List.mem_toFinset.mp ha)
      have hlen : l1.length < min_clients := by
        have h1 : (keyList l1).length ≤ (insert c.client_id S).card := by
          rw [← List.toFinset_card_of_nodup hnd1]
          exact Finset.card_le_card hsubS
        have h2 : (insert c.client_id S).card
            ≤ (S ∪ ((c :: rest).map (fun c => c.client_id)).toFinset).card := by
          refine Finset.card_le_card ?_
          intro a ha
          rcases Finset.mem_insert.mp ha with rfl | ha
          · exact Finset.mem_union_right _ (by simp)
          · exact Finset.mem_union_left _ ha
        have := keyList_length l1
        omega
      have hstep : register_client_update s c.client_id c.weights c.metrics
          = (.waiting l1.length min_clients, { s with client_updates := l1 }) := by
        simp only [register_client_update]
        rw [← hl1, if_neg (not_le.mpr hlen)]
      have hrec := ih { s with client_updates := l1 } (insert c.client_id S) hsub1 hnd1
        (by rw [hcard_eq]; exact hcard)
      calc (runRegisters s (c :: rest)).training_round
          = (runRegisters { s with client_updates := l1 } rest).training_round := by
            simp only [runRegisters, List.foldl_cons, hstep]
        _ = s.training_round := hrec

/-- When the quorum is met, the aggregation computes, the new state
dict loads, and the metrics are well-formed, `aggregate_updates`
returns the success result for round `training_round + 1` with the
pending buffer cleared. -/
theorem aggregate_updates_success (s : ServerState)
    (h3 : ¬ s.client_updates.length < min_clients)
    (hne : s.client_updates ≠ [])
    (nw : ParamMap) (hfa : server_fedavg s.client_updates = some nw)
    (hld : (load_state_dict s.global_model nw).isSome)
    (hmt : ∀ cu ∈ s.client_updates,
      cu.2.metrics.accuracy ≠ some [] ∧ cu.2.metrics.loss ≠ some []) :
    ∃ a l st, aggregate_updates s
        = (.success (s.training_round + 1) s.client_updates.length a l, st)
      ∧ st.training_round = s.training_round + 1
      ∧ st.client_updates = [] := by
  obtain ⟨gm2, hgm2⟩ := Option.isSome_iff_exists.mp hld
  obtain ⟨accs, haccs⟩ := mapM_isSome (fun cu => lastOrZero cu.2.metrics.accuracy)
    s.client_updates (fun cu hcu => lastOrZero_isSome _ (hmt cu hcu).1)
  obtain ⟨losses, hlosses⟩ := mapM_isSome (fun cu => lastOrZero cu.2.metrics.loss)
    s.client_updates (fun cu hcu => lastOrZero_isSome _ (hmt cu hcu).2)
  have key : (aggregate_updates s).1
      = .success (s.training_round + 1) s.client_updates.length
          (accs.sum / (s.client_updates.length : ℚ))
          (losses.sum / (s.client_updates.length : ℚ))
      ∧ (aggregate_updates s).2.training_round = s.training_round + 1
      ∧ (aggregate_updates s).2.client_updates = [] := by
    unfold aggregate_updates
    rw [if_neg h3]
    dsimp only
    rw [hfa]
    dsimp only
    rw [hgm2]
    dsimp only
    unfold calc_aggregation_metrics
    dsimp only
    rw [if_neg hne, haccs, hlosses]
    exact ⟨rfl, rfl, rfl⟩
  exact ⟨_, _, (aggregate_updates s).2, by rw [← key.1], key.2.1, key.2.2⟩

/-- When every client map carries exactly the global model's keys with
matching shapes, the accumulated state dict loads successfully. -/
theorem load_after_accum_isSome (gm : ParamMap) (hnd : (keyList gm).Nodup)
    (w1 : ℚ) (m1 : ParamMap) (rest : List (ℚ × ParamMap))
    (h1 : keyList m1 = keyList gm)
    (hrest : ∀ wm ∈ rest, keyList wm.2 = keyList gm)
    (hshape1 : ∀ kv ∈ m1, ((gm.lookup kv.1).getD []).length = kv.2.length)
    (hshaper : ∀ wm ∈ rest, ∀ kv ∈ wm.2,
      ((gm.lookup kv.1).getD []).length = kv.2.length) :
    (load_state_dict gm (weightedAccum ((w1, m1) :: rest))).isSome := by
  obtain ⟨hk, hl⟩ := weightedAccum_spec (keyList gm) hnd w1 m1 rest h1 hrest
  have hndnw : (keyList (weightedAccum ((w1, m1) :: rest))).Nodup := hk ▸ hnd
  have hb1 : (weightedAccum ((w1, m1) :: rest)).all (fun kv =>
      match gm.lookup kv.1 with
      | some v => v.length == kv.2.length
      | none => false) = true := by
    rw [List.all_eq_true]
    intro kv hkv
    have hkmem : kv.1 ∈ keyList gm := hk ▸ fst_mem_keyList hkv
    obtain ⟨gv, hgv⟩ := Option.isSome_iff_exists.mp (lookup_mem_of_ne_none gm kv.1 hkmem)
    obtain ⟨v1, hv1⟩ := Option.isSome_iff_exists.mp
      (lookup_mem_of_ne_none m1 kv.1 (h1.symm ▸ hkmem))
    have hkv2 : kv.2 = accumVal rest kv.1 (addVec (zerosLike v1) (smulVec w1 v1)) := by
      have ha := hl kv.1 v1 hv1
      have hb := lookup_eq_of_mem_nodup _ hndnw kv hkv
      rw [ha] at hb
      exact (Option.some.inj hb).symm
    have hL1 : ((gm.lookup kv.1).getD []).length = v1.length :=
      hshape1 (kv.1, v1) (mem_of_lookup_eq_some m1 kv.1 v1 hv1)
    have hinitlen : (addVec (zerosLike v1) (smulVec w1 v1)).length = v1.length := by
      simp [addVec, zerosLike, smulVec]
    have hallshape : ∀ wm ∈ rest, ((wm.2.lookup kv.1).getD []).length = v1.length := by
      intro wm hwm
      obtain ⟨v2, hv2⟩ := Option.isSome_iff_exists.mp
        (lookup_mem_of_ne_none wm.2 kv.1 ((hrest wm hwm).symm ▸ hkmem))
      have := hshaper wm hwm (kv.1, v2) (mem_of_lookup_eq_some wm.2 kv.1 v2 hv2)
      rw [hv2]
      simp only [Option.getD_some]
      rw [← this, hL1]
    have hlen : kv.2.length = v1.length := by
      rw [hkv2]
      exact length_accumVal kv.1 v1.length rest _ hinitlen hallshape
    rw [hgv]
    have : gv.length = kv.2.length := by
      have := hL1
      rw [hgv] at this
      simp only [Option.getD_some] at this
      rw [this, hlen]
    simp [this]
  have hb2 : gm.all (fun kv =>
      ((weightedAccum ((w1, m1) :: rest)).lookup kv.1).isSome) = true := by
    rw [List.all_eq_true]
    intro kv hkv
    have : kv.1 ∈ keyList (weightedAccum ((w1, m1) :: rest)) := hk ▸ fst_mem_keyList hkv
    simp [lookup_mem_of_ne_none _ kv.1 this]
  unfold load_state_dict
  rw [if_pos (by rw [hb1, hb2]; rfl)]
  rfl

theorem dictInsert_of_absent {β : Type} (l : List (String × β)) (k : String) (v : β)
    (h : l.lookup k = none) : dictInsert l k v = l ++ [(k, v)] := by
  unfold dictInsert
  rw [h]
  rfl

/-- A submission from a fresh client below quorum takes the `waiting`
branch and only appends the pending update. -/
theorem register_waiting_of_absent (s : ServerState) (cid : String) (mw : ParamMap)
    (mt : ClientMetrics) (habs : s.client_updates.lookup cid = none)
    (hlen : s.client_updates.length + 1 < min_clients) :
    register_client_update s cid mw mt
      = (.waiting (s.client_updates.length + 1) min_clients,
         { s with client_updates :=
            s.client_updates ++ [(cid, ⟨mw, mt, mt.samples_used.getD 0⟩)] }) := by
  simp only [register_client_update, dictInsert_of_absent _ _ _ habs]
  rw [if_neg (by simpa using not_le.mpr hlen)]
  simp

/-- A submission from a fresh client that completes the quorum triggers
the synchronous aggregation on the extended buffer. -/
theorem register_triggers_aggregate (s : ServerState) (cid : String) (mw : ParamMap)
    (mt : ClientMetrics) (habs : s.client_updates.lookup cid = none)
    (hlen : min_clients ≤ s.client_updates.length + 1) :
    register_client_update s cid mw mt
      = aggregate_updates { s with client_updates :=
          s.client_updates ++ [(cid, ⟨mw, mt, mt.samples_used.getD 0⟩)] } := by
  simp only [register_client_update, dictInsert_of_absent _ _ _ habs]
  rw [if_pos (by simpa using hlen)]

/-- C2.  Starting from an empty pending buffer: (a) any sequence of
`register_client_update` calls with fewer than `min_clients` (3)
distinct client ids leaves the round counter unchanged; (b) submitting
exactly `min_clients` distinct client ids whose parameter maps match
the global model's key schema (same key list and shapes) with valid
metrics advances the round counter by exactly 1, leaves the pending
buffer empty, and returns the success result. -/
theorem coordinator_quorum (s0 : ServerState) (h0 : s0.client_updates = []) :
    (∀ calls : List RegCall,
      (calls.map (fun c => c.client_id)).toFinset.card < min_clients →
      (runRegisters s0 calls).training_round = s0.training_round)
    ∧ ∀ (c1 c2 c3 : String) (m1 m2 m3 : ParamMap) (mt1 mt2 mt3 : ClientMetrics)
        (n1 n2 n3 : ℕ),
      c1 ≠ c2 → c1 ≠ c3 → c2 ≠ c3 →
      (keyList s0.global_model).Nodup →
      keyList m1 = keyList s0.global_model →
      keyList m2 = keyList s0.global_model →
      keyList m3 = keyList s0.global_model →
      (∀ kv ∈ m1, ((s0.global_model.lookup kv.1).getD []).length = kv.2.length) →
      (∀ kv ∈ m2, ((s0.global_model.lookup kv.1).getD []).length = kv.2.length) →
      (∀ kv ∈ m3, ((s0.global_model.lookup kv.1).getD []).length = kv.2.length) →
      mt1.samples_used = some n1 → 1 ≤ n1 →
      mt2.samples_used = some n2 → 1 ≤ n2 →
      mt3.samples_used = some n3 → 1 ≤ n3 →
      mt1.accuracy ≠ some [] → mt1.loss ≠ some [] →
      mt2.accuracy ≠ some [] → mt2.loss ≠ some [] →
      mt3.accuracy ≠ some [] → mt3.loss ≠ some [] →
      (runRegisters s0 [⟨c1, m1, mt1⟩, ⟨c2, m2, mt2⟩, ⟨c3, m3, mt3⟩]).training_round
          = s0.training_round + 1
      ∧ (runRegisters s0 [⟨c1, m1, mt1⟩, ⟨c2, m2, mt2⟩, ⟨c3, m3, mt3⟩]).client_updates
          = []
      ∧ ∃ a l, (register_client_update
            (register_client_update
              (register_client_update s0 c1 m1 mt1).2 c2 m2 mt2).2 c3 m3 mt3).1
          = .success (s0.training_round + 1) 3 a l := by
  constructor
  · intro calls hcard
    refine runRegisters_round calls s0 ∅ ?_ ?_ ?_
    · intro k hk
      rw [h0] at hk
      cases hk
    · rw [h0]
      exact List.nodup_nil
    · simpa using hcard
  · intro c1 c2 c3 m1 m2 m3 mt1 mt2 mt3 n1 n2 n3 h12 h13 h23 hnd hk1 hk2 hk3
      hsh1 hsh2 hsh3 hn1 hpos1 hn2 hpos2 hn3 hpos3 hac1 hlo1 hac2 hlo2 hac3 hlo3
    have habs1 : s0.client_updates.lookup c1 = none := by
      rw [h0]
      rfl
    have hstep1 := register_waiting_of_absent s0 c1 m1 mt1 habs1
      (by rw [h0]; simp [min_clients])
    have habs2 : ({ s0 with client_updates :=
        s0.client_updates ++ [(c1, ⟨m1, mt1, mt1.samples_used.getD 0⟩)] }
          : ServerState).client_updates.lookup c2 = none := by
      dsimp only
      rw [h0]
      simp [List.lookup, beq_eq_false_iff_ne.mpr (Ne.symm h12)]
    have hstep2 := register_waiting_of_absent
      { s0 with client_updates :=
        s0.client_updates ++ [(c1, ⟨m1, mt1, mt1.samples_used.getD 0⟩)] }
      c2 m2 mt2 habs2 (by dsimp only; rw [h0]; simp [min_clients])
    have habs3 : ({ s0 with client_updates :=
        (s0.client_updates ++ [(c1, ⟨m1, mt1, mt1.samples_used.getD 0⟩)])
          ++ [(c2, ⟨m2, mt2, mt2.samples_used.getD 0⟩)] }
          : ServerState).client_updates.lookup c3 = none := by
      dsimp only
      rw [h0]
      simp [List.lookup, beq_eq_false_iff_ne.mpr (Ne.symm h13),
        beq_eq_false_iff_ne.mpr (Ne.symm h23)]
    have hstep3 := register_triggers_aggregate
      { s0 with client_updates :=
        (s0.client_updates ++ [(c1, ⟨m1, mt1, mt1.samples_used.getD 0⟩)])
          ++ [(c2, ⟨m2, mt2, mt2.samples_used.getD 0⟩)] }
      c3 m3 mt3 habs3 (by dsimp only; rw [h0]; simp [min_clients])
    set s3 : ServerState :=
      { s0 with client_updates :=
        ((s0.client_updates ++ [(c1, ⟨m1, mt1, mt1.samples_used.getD 0⟩)])
          ++ [(c2, ⟨m2, mt2, mt2.samples_used.getD 0⟩)])
          ++ [(c3, ⟨m3, mt3, mt3.samples_used.getD 0⟩)] } with hs3def
    have hlist : s3.client_updates
        = [(c1, ⟨m1, mt1, mt1.samples_used.getD 0⟩),
           (c2, ⟨m2, mt2, mt2.samples_used.getD 0⟩),
           (c3, ⟨m3, mt3, mt3.samples_used.getD 0⟩)] := by
      rw [hs3def]
      dsimp only
      rw [h0]
      rfl
    have hfa : server_fedavg s3.client_updates
        = some (weightedAccum
            [(((n1 : ℕ) : ℚ) / (((n1 + n2 + n3 : ℕ)) : ℚ), m1),
             (((n2 : ℕ) : ℚ) / (((n1 + n2 + n3 : ℕ)) : ℚ), m2),
             (((n3 : ℕ) : ℚ) / (((n1 + n2 + n3 : ℕ)) : ℚ), m3)]) := by
      rw [hlist]
      unfold server_fedavg
      simp only [List.map_cons, List.map_nil, List.sum_cons, List.sum_nil, hn1, hn2, hn3,
        Option.getD_some]
      rw [if_neg (by rintro ⟨-, h⟩; omega)]
      norm_num [Nat.cast_add, add_assoc]
    have hld : (load_state_dict s3.global_model (weightedAccum
        [(((n1 : ℕ) : ℚ) / (((n1 + n2 + n3 : ℕ)) : ℚ), m1),
         (((n2 : ℕ) : ℚ) / (((n1 + n2 + n3 : ℕ)) : ℚ), m2),
         (((n3 : ℕ) : ℚ) / (((n1 + n2 + n3 : ℕ)) : ℚ), m3)])).isSome := by
      have hgm : s3.global_model = s0.global_model := by
        rw [hs3def]
      rw [hgm]
      refine load_after_accum_isSome s0.global_model hnd _ m1
        [(((n2 : ℕ) : ℚ) / (((n1 + n2 + n3 : ℕ)) : ℚ), m2),
         (((n3 : ℕ) : ℚ) / (((n1 + n2 + n3 : ℕ)) : ℚ), m3)] hk1 ?_ hsh1 ?_
      · intro wm hwm
        rcases List.mem_cons.mp hwm with rfl | hwm
        · exact hk2
        · simp at hwm
          rw [hwm]
          exact hk3
      · intro wm hwm
        rcases List.mem_cons.mp hwm with rfl | hwm
        · exact hsh2
        · simp at hwm
          rw [hwm]
          exact hsh3
    have hmt : ∀ cu ∈ s3.client_updates,
        cu.2.metrics.accuracy ≠ some [] ∧ cu.2.metrics.loss ≠ some [] := by
      rw [hlist]
      intro cu hcu
      rcases List.mem_cons.mp hcu with rfl | hcu
      · exact ⟨hac1, hlo1⟩
      rcases List.mem_cons.mp hcu with rfl | hcu
      · exact ⟨hac2, hlo2⟩
      rcases List.mem_cons.mp hcu with rfl | hcu
      · exact ⟨hac3, hlo3⟩
      cases hcu
    obtain ⟨a, l, st, heq, hr, hb⟩ := aggregate_updates_success s3
      (by rw [hlist]; simp [min_clients]) (by rw [hlist]; simp) _ hfa hld hmt
    have hrun : runRegisters s0 [⟨c1, m1, mt1⟩, ⟨c2, m2, mt2⟩, ⟨c3, m3, mt3⟩]
        = (register_client_update
            (register_client_update
              (register_client_update s0 c1 m1 mt1).2 c2 m2 mt2).2 c3 m3 mt3).2 := rfl
    have hchain : (register_client_update
        (register_client_update
          (register_client_update s0 c1 m1 mt1).2 c2 m2 mt2).2 c3 m3 mt3)
        = aggregate_updates s3 := by
      rw [hstep1]
      dsimp only
      rw [hstep2]
      dsimp only
      rw [hstep3, hs3def]
    have hround3 : s3.training_round = s0.training_round := by
      rw [hs3def]
    have hlen3 : s3.client_updates.length = 3 := by
      rw [hlist]
      rfl
    refine ⟨?_, ?_, a, l, ?_⟩
    · rw [hrun, hchain, heq]
      dsimp only
      rw [hr, hround3]
    · rw [hrun, hchain, heq]
      dsimp only
      exact hb
    · rw [hchain, heq]
      dsimp only
      rw [hround3, hlen3]

/-- Witness for C2: one submission keeps round 7; three distinct
submissions with matching schemas advance it to 8 and clear the
buffer. -/
theorem coordinator_quorum_witness :
    emptyServer.client_updates = []
    ∧ (runRegisters emptyServer [⟨"a", [("w", [1])], okMetrics⟩]).training_round
        = emptyServer.training_round
    ∧ (runRegisters emptyServer
        [⟨"a", [("w", [1])], okMetrics⟩, ⟨"b", [("w", [2])], okMetrics⟩,
         ⟨"c", [("w", [3])], okMetrics⟩]).training_round
        = emptyServer.training_round + 1
    ∧ (runRegisters emptyServer
        [⟨"a", [("w", [1])], okMetrics⟩, ⟨"b", [("w", [2])], okMetrics⟩,
         ⟨"c", [("w", [3])], okMetrics⟩]).client_updates = [] := by
  have h := coordinator_quorum emptyServer rfl
  have hb := h.2 "a" "b" "c" [("w", [1])] [("w", [2])] [("w", [3])]
    okMetrics okMetrics okMetrics 10 10 10
    (by decide) (by decide) (by decide) (by decide) rfl rfl rfl
    (by decide) (by decide) (by decide)
    rfl (by decide) rfl (by decide) rfl (by decide)
    (by decide) (by decide) (by decide) (by decide) (by decide) (by decide)
  exact ⟨rfl, h.1 [⟨"a", [("w", [1])], okMetrics⟩] (by decide), hb.1, hb.2.1⟩

/-! ### C8: krum returns one of the submitted maps -/

theorem argminAux_lt (n : ℕ) :
    ∀ (xs : List ℝ) (best : ℝ) (bi i : ℕ), bi < n → i + xs.length ≤ n →
      argminAux best bi i xs < n := by
  intro xs
  induction xs with
  | nil => intro best bi i hbi _; exact hbi
  | cons x rest ih =>
      intro best bi i hbi hlen
      have hi : i < n := by
        simp only [List.length_cons] at hlen
        omega
      have hlen' : (i + 1) + rest.length ≤ n := by
        simp only [List.length_cons] at hlen
        omega
      show argminAux best bi i (x :: rest) < n
      by_cases h : x < best
      · rw [show argminAux best bi i (x :: rest)
              = argminAux x i (i + 1) rest from by rw [argminAux, if_pos h]]
        exact ih x i (i + 1) hi hlen'
      · rw [show argminAux best bi i (x :: rest)
              = argminAux best bi (i + 1) rest from by rw [argminAux, if_neg h]]
        exact ih best bi (i + 1) hbi hlen'

theorem argminIdx_lt (l : List ℝ) (h : l ≠ []) : argminIdx l < l.length := by
  cases l with
  | nil => exact absurd rfl h
  | cons x xs =>
      show argminAux x 0 1 xs < (x :: xs).length
      exact argminAux_lt (x :: xs).length xs x 0 1 (by simp) (by simp [Nat.add_comm])

/-- C8: whenever `len(client_weights) > 2 * byzantine_tolerance + 1`,
`krum` returns an element of `client_weights` itself — one client's
submitted parameter map, not an average. -/
theorem krum_returns_member (cw : List ParamMap) (f : ℕ)
    (h : 2 * f + 1 < cw.length) : krum cw f ∈ cw := by
  have hne : cw ≠ [] := by
    intro hc
    rw [hc] at h
    simp at h
  have hs : (krumScores cw f).length = cw.length := by
    simp [krumScores]
  have hlt : argminIdx (krumScores cw f) < cw.length := by
    have hsne : krumScores cw f ≠ [] := by
      intro hc
      rw [hc] at hs
      simp at hs
      exact hne (List.length_eq_zero.mp hs.symm)
    have := argminIdx_lt (krumScores cw f) hsne
    rwa [hs] at this
  rw [krum, if_neg (not_le.mpr h)]
  rw [List.getD_eq_getElem cw [] hlt]
  exact List.getElem_mem hlt

/-- C8 witness: four clients with `f = 1`. -/
theorem krum_returns_member_witness :
    2 * 1 + 1 <
      ([[("w", [0])], [("w", [1])], [("w", [2])], [("w", [3])]] : List ParamMap).length
    ∧ krum [[("w", [0])], [("w", [1])], [("w", [2])], [("w", [3])]] 1
        ∈ ([[("w", [0])], [("w", [1])], [("w", [2])], [("w", [3])]] : List ParamMap) :=
  ⟨by decide,
   krum_returns_member [[("w", [0])], [("w", [1])], [("w", [2])], [("w", [3])]] 1
     (by decide)⟩

/-! ### C3: bridging the real-valued krum pipeline to rational computation -/

theorem orderedInsert_castR (q : ℚ) (l : List ℚ) :
    @List.orderedInsert ℝ (· ≤ ·) (fun a b => Classical.propDecidable (a ≤ b)) (q : ℝ)
      (castR l) = castR (List.orderedInsert (· ≤ ·) q l) := by
  induction l with
  | nil => rfl
  | cons y ys ih =>
      show @List.orderedInsert ℝ (· ≤ ·) (fun a b => Classical.propDecidable (a ≤ b)) (q : ℝ)
          ((y : ℝ) :: castR ys) = castR (List.orderedInsert (· ≤ ·) q (y :: ys))
      rw [List.orderedInsert, List.orderedInsert]
      by_cases h : q ≤ y
      · rw [if_pos (show (q : ℝ) ≤ (y : ℝ) by exact_mod_cast h), if_pos h]
        rfl
      · rw [if_neg (show ¬ (q : ℝ) ≤ (y : ℝ) by exact_mod_cast h), if_neg h, ih]
        rfl

theorem sortR_castR (l : List ℚ) : sortR (castR l) = castR (sortQ l) := by
  induction l with
  | nil => rfl
  | cons x xs ih =>
      show sortR ((x : ℝ) :: castR xs) = castR (sortQ (x :: xs))
      rw [show sortR ((x : ℝ) :: castR xs)
            = @List.orderedInsert ℝ (· ≤ ·) (fun a b => Classical.propDecidable (a ≤ b))
                (x : ℝ) (sortR (castR xs)) from rfl,
          show sortQ (x :: xs) = List.orderedInsert (· ≤ ·) x (sortQ xs) from rfl,
          ih, orderedInsert_castR]

theorem argminAux_castR (xs : List ℚ) :
    ∀ (best : ℚ) (bi i : ℕ),
      argminAux (best : ℝ) bi i (castR xs) = argminAuxQ best bi i xs := by
  induction xs with
  | nil => intro best bi i; rfl
  | cons x rest ih =>
      intro best bi i
      rw [show castR (x :: rest) = (x : ℝ) :: castR rest from rfl, argminAux, argminAuxQ]
      by_cases h : x < best
      · rw [if_pos (show (x : ℝ) < (best : ℝ) by exact_mod_cast h), if_pos h]
        exact ih x i (i + 1)
      · rw [if_neg (show ¬ (x : ℝ) < (best : ℝ) by exact_mod_cast h), if_neg h]
        exact ih best bi (i + 1)

theorem argminIdx_castR (l : List ℚ) : argminIdx (castR l) = argminIdxQ l := by
  cases l with
  | nil => rfl
  | cons x xs =>
      rw [show castR (x :: xs) = (x : ℝ) :: castR xs from rfl, argminIdx, argminIdxQ]
      exact argminAux_castR xs x 0 1

theorem sum_castR (l : List ℚ) : (castR l).sum = ((l.sum : ℚ) : ℝ) := by
  induction l with
  | nil =>
      show (List.sum []) = ((0 : ℚ) : ℝ)
      norm_num
  | cons x xs ih =>
      show ((x : ℝ) :: castR xs).sum = (((x :: xs).sum : ℚ) : ℝ)
      rw [List.sum_cons, ih, List.sum_cons]
      push_cast
      ring

theorem take_castR (k : ℕ) (l : List ℚ) : (castR l).take k = castR (l.take k) := by
  rw [castR, castR, List.map_take]

/-- Evaluating `_weight_distance` on single-key one-dimensional maps:
the distance is `|a - b|`, given here as a nonnegative `c` with
`c ^ 2 = (a - b) ^ 2`. -/
theorem wd_single (a b c : ℚ) (hc : 0 ≤ c) (h : c ^ 2 = (a - b) ^ 2) :
    weight_distance [("w", [a])] [("w", [b])] = ((c : ℚ) : ℝ) := by
  have hq : sumSqDiff [("w", [a])] [("w", [b])] = (a - b) ^ 2 := by
    simp [sumSqDiff, sumSq, subVec, List.lookup]
  rw [weight_distance, hq, ← h,
      show (((c ^ 2 : ℚ)) : ℝ) = ((c : ℝ)) ^ 2 by push_cast; ring]
  exact Real.sqrt_sq (by exact_mod_cast hc)

theorem distEntry_self (cw : List ParamMap) (i : ℕ) : distEntry cw i i = 0 := by
  simp [distEntry]

theorem distEntry_nonneg (cw : List ParamMap) (i j : ℕ) : 0 ≤ distEntry cw i j := by
  rw [distEntry]
  split
  · exact le_refl 0
  · split
    · exact Real.sqrt_nonneg _
    · exact Real.sqrt_nonneg _

theorem sortR_perm (l : List ℝ) : List.Perm (sortR l) l :=
  @List.perm_insertionSort ℝ (· ≤ ·) (fun a b => Classical.propDecidable (a ≤ b)) l

theorem sortR_sorted (l : List ℝ) : (sortR l).Sorted (· ≤ ·) :=
  @List.sorted_insertionSort ℝ (· ≤ ·) (fun a b => Classical.propDecidable (a ≤ b)) _ _ l

theorem sortR_eq_of_perm (l1 l2 : List ℝ) (h : List.Perm l1 l2) : sortR l1 = sortR l2 :=
  List.eq_of_perm_of_sorted ((sortR_perm l1).trans (h.trans (sortR_perm l2).symm))
    (sortR_sorted l1) (sortR_sorted l2)

theorem sortR_cons_zero (l : List ℝ) (h : ∀ x ∈ l, 0 ≤ x) :
    sortR (0 :: l) = 0 :: sortR l := by
  rw [show sortR (0 :: l)
        = @List.orderedInsert ℝ (· ≤ ·) (fun a b => Classical.propDecidable (a ≤ b)) 0
            (sortR l) from rfl]
  cases hsl : sortR l with
  | nil => rfl
  | cons y ys =>
      have hy : 0 ≤ y := h y ((sortR_perm l).mem_iff.mp (by
        rw [hsl]; exact List.mem_cons_self y ys))
      rw [List.orderedInsert, if_pos hy]

theorem distRow_perm (cw : List ParamMap) (i : ℕ) (hi : i < cw.length) :
    List.Perm (distRow cw i)
      (0 :: ((List.range cw.length).erase i).map (distEntry cw i)) := by
  have h1 : List.Perm (List.range cw.length) (i :: (List.range cw.length).erase i) :=
    List.perm_cons_erase (List.mem_range.mpr hi)
  have h3 := h1.map (distEntry cw i)
  rw [List.map_cons, distEntry_self] at h3
  rw [distRow]
  exact h3

theorem sortR_distRow (cw : List ParamMap) (i : ℕ) (hi : i < cw.length) :
    sortR (distRow cw i)
      = 0 :: sortR (((List.range cw.length).erase i).map (distEntry cw i)) := by
  rw [sortR_eq_of_perm _ _ (distRow_perm cw i hi)]
  refine sortR_cons_zero _ ?_
  intro x hx
  rcases List.mem_map.mp hx with ⟨j, _, rfl⟩
  exact distEntry_nonneg cw i j

theorem sum_take_cons_zero (k : ℕ) (s : List ℝ) :
    ((0 :: s).take k).sum = (s.take (k - 1)).sum := by
  cases k with
  | zero => rfl
  | succ k => simp [List.take_succ_cons]

theorem wd01 : weight_distance [("w", [0])] [("w", [1])] = ((1 : ℚ) : ℝ) :=
  wd_single 0 1 1 (by norm_num) (by norm_num)

theorem wd02 : weight_distance [("w", [0])] [("w", [100])] = ((100 : ℚ) : ℝ) :=
  wd_single 0 100 100 (by norm_num) (by norm_num)

theorem wd03 : weight_distance [("w", [0])] [("w", [106])] = ((106 : ℚ) : ℝ) :=
  wd_single 0 106 106 (by norm_num) (by norm_num)

theorem wd04 : weight_distance [("w", [0])] [("w", [112])] = ((112 : ℚ) : ℝ) :=
  wd_single 0 112 112 (by norm_num) (by norm_num)

theorem wd05 : weight_distance [("w", [0])] [("w", [1000])] = ((1000 : ℚ) : ℝ) :=
  wd_single 0 1000 1000 (by norm_num) (by norm_num)

theorem wd12 : weight_distance [("w", [1])] [("w", [100])] = ((99 : ℚ) : ℝ) :=
  wd_single 1 100 99 (by norm_num) (by norm_num)

theorem wd13 : weight_distance [("w", [1])] [("w", [106])] = ((105 : ℚ) : ℝ) :=
  wd_single 1 106 105 (by norm_num) (by norm_num)

theorem wd14 : weight_distance [("w", [1])] [("w", [112])] = ((111 : ℚ) : ℝ) :=
  wd_single 1 112 111 (by norm_num) (by norm_num)

theorem wd15 : weight_distance [("w", [1])] [("w", [1000])] = ((999 : ℚ) : ℝ) :=
  wd_single 1 1000 999 (by norm_num) (by norm_num)

theorem wd23 : weight_distance [("w", [100])] [("w", [106])] = ((6 : ℚ) : ℝ) :=
  wd_single 100 106 6 (by norm_num) (by norm_num)

theorem wd24 : weight_distance [("w", [100])] [("w", [112])] = ((12 : ℚ) : ℝ) :=
  wd_single 100 112 12 (by norm_num) (by norm_num)

theorem wd25 : weight_distance [("w", [100])] [("w", [1000])] = ((900 : ℚ) : ℝ) :=
  wd_single 100 1000 900 (by norm_num) (by norm_num)

theorem wd34 : weight_distance [("w", [106])] [("w", [112])] = ((6 : ℚ) : ℝ) :=
  wd_single 106 112 6 (by norm_num) (by norm_num)

theorem wd35 : weight_distance [("w", [106])] [("w", [1000])] = ((894 : ℚ) : ℝ) :=
  wd_single 106 1000 894 (by norm_num) (by norm_num)

theorem wd45 : weight_distance [("w", [112])] [("w", [1000])] = ((888 : ℚ) : ℝ) :=
  wd_single 112 1000 888 (by norm_num) (by norm_num)

theorem distRow_eval_0 :
    distRow krumClients 0 = castR [0, 1, 100, 106, 112, 1000] := by
  show [(0 : ℝ),
        weight_distance [("w", [0])] [("w", [1])],
        weight_distance [("w", [0])] [("w", [100])],
        weight_distance [("w", [0])] [("w", [106])],
        weight_distance [("w", [0])] [("w", [112])],
        weight_distance [("w", [0])] [("w", [1000])]]
      = castR [0, 1, 100, 106, 112, 1000]
  rw [wd01, wd02, wd03, wd04, wd05]
  simp [castR]

theorem krumScore_eval_0 : krumScore krumClients 2 0 = ((1 : ℚ) : ℝ) := by
  rw [krumScore, distRow_eval_0, sortR_castR,
      show krumClients.length - 2 - 2 = 2 from rfl, take_castR, sum_castR]
  norm_num [sortQ, List.insertionSort, List.orderedInsert]

theorem distRow_eval_1 :
    distRow krumClients 1 = castR [1, 0, 99, 105, 111, 999] := by
  show [weight_distance [("w", [0])] [("w", [1])], (0 : ℝ),
        weight_distance [("w", [1])] [("w", [100])],
        weight_distance [("w", [1])] [("w", [106])],
        weight_distance [("w", [1])] [("w", [112])],
        weight_distance [("w", [1])] [("w", [1000])]]
      = castR [1, 0, 99, 105, 111, 999]
  rw [wd01, wd12, wd13, wd14, wd15]
  simp [castR]

theorem distRow_eval_2 :
    distRow krumClients 2 = castR [100, 99, 0, 6, 12, 900] := by
  show [weight_distance [("w", [0])] [("w", [100])],
        weight_distance [("w", [1])] [("w", [100])], (0 : ℝ),
        weight_distance [("w", [100])] [("w", [106])],
        weight_distance [("w", [100])] [("w", [112])],
        weight_distance [("w", [100])] [("w", [1000])]]
      = castR [100, 99, 0, 6, 12, 900]
  rw [wd02, wd12, wd23, wd24, wd25]
  simp [castR]

theorem distRow_eval_3 :
    distRow krumClients 3 = castR [106, 105, 6, 0, 6, 894] := by
  show [weight_distance [("w", [0])] [("w", [106])],
        weight_distance [("w", [1])] [("w", [106])],
        weight_distance [("w", [100])] [("w", [106])], (0 : ℝ),
        weight_distance [("w", [106])] [("w", [112])],
        weight_distance [("w", [106])] [("w", [1000])]]
      = castR [106, 105, 6, 0, 6, 894]
  rw [wd03, wd13, wd23, wd34, wd35]
  simp [castR]

theorem distRow_eval_4 :
    distRow krumClients 4 = castR [112, 111, 12, 6, 0, 888] := by
  show [weight_distance [("w", [0])] [("w", [112])],
        weight_distance [("w", [1])] [("w", [112])],
        weight_distance [("w", [100])] [("w", [112])],
        weight_distance [("w", [106])] [("w", [112])], (0 : ℝ),
        weight_distance [("w", [112])] [("w", [1000])]]
      = castR [112, 111, 12, 6, 0, 888]
  rw [wd04, wd14, wd24, wd34, wd45]
  simp [castR]

theorem distRow_eval_5 :
    distRow krumClients 5 = castR [1000, 999, 900, 894, 888, 0] := by
  show [weight_distance [("w", [0])] [("w", [1000])],
        weight_distance [("w", [1])] [("w", [1000])],
        weight_distance [("w", [100])] [("w", [1000])],
        weight_distance [("w", [106])] [("w", [1000])],
        weight_distance [("w", [112])] [("w", [1000])], (0 : ℝ)]
      = castR [1000, 999, 900, 894, 888, 0]
  rw [wd05, wd15, wd25, wd35, wd45]
  simp [castR]

theorem krumScore_eval_1 : krumScore krumClients 2 1 = ((1 : ℚ) : ℝ) := by
  rw [krumScore, distRow_eval_1, sortR_castR,
      show krumClients.length - 2 - 2 = 2 from rfl, take_castR, sum_castR]
  norm_num [sortQ, List.insertionSort, List.orderedInsert]

theorem krumScore_eval_2 : krumScore krumClients 2 2 = ((6 : ℚ) : ℝ) := by
  rw [krumScore, distRow_eval_2, sortR_castR,
      show krumClients.length - 2 - 2 = 2 from rfl, take_castR, sum_castR]
  norm_num [sortQ, List.insertionSort, List.orderedInsert]

theorem krumScore_eval_3 : krumScore krumClients 2 3 = ((6 : ℚ) : ℝ) := by
  rw [krumScore, distRow_eval_3, sortR_castR,
      show krumClients.length - 2 - 2 = 2 from rfl, take_castR, sum_castR]
  norm_num [sortQ, List.insertionSort, List.orderedInsert]

theorem krumScore_eval_4 : krumScore krumClients 2 4 = ((6 : ℚ) : ℝ) := by
  rw [krumScore, distRow_eval_4, sortR_castR,
      show krumClients.length - 2 - 2 = 2 from rfl, take_castR, sum_castR]
  norm_num [sortQ, List.insertionSort, List.orderedInsert]

theorem krumScore_eval_5 : krumScore krumClients 2 5 = ((888 : ℚ) : ℝ) := by
  rw [krumScore, distRow_eval_5, sortR_castR,
      show krumClients.length - 2 - 2 = 2 from rfl, take_castR, sum_castR]
  norm_num [sortQ, List.insertionSort, List.orderedInsert]

theorem othersRow_eval_0 :
    ((List.range krumClients.length).erase 0).map (distEntry krumClients 0)
      = castR [1, 100, 106, 112, 1000] := by
  show [weight_distance [("w", [0])] [("w", [1])],
        weight_distance [("w", [0])] [("w", [100])],
        weight_distance [("w", [0])] [("w", [106])],
        weight_distance [("w", [0])] [("w", [112])],
        weight_distance [("w", [0])] [("w", [1000])]]
      = castR [1, 100, 106, 112, 1000]
  rw [wd01, wd02, wd03, wd04, wd05]
  simp [castR]

theorem othersRow_eval_1 :
    ((List.range krumClients.length).erase 1).map (distEntry krumClients 1)
      = castR [1, 99, 105, 111, 999] := by
  show [weight_distance [("w", [0])] [("w", [1])],
        weight_distance [("w", [1])] [("w", [100])],
        weight_distance [("w", [1])] [("w", [106])],
        weight_distance [("w", [1])] [("w", [112])],
        weight_distance [("w", [1])] [("w", [1000])]]
      = castR [1, 99, 105, 111, 999]
  rw [wd01, wd12, wd13, wd14, wd15]
  simp [castR]

theorem othersRow_eval_2 :
    ((List.range krumClients.length).erase 2).map (distEntry krumClients 2)
      = castR [100, 99, 6, 12, 900] := by
  show [weight_distance [("w", [0])] [("w", [100])],
        weight_distance [("w", [1])] [("w", [100])],
        weight_distance [("w", [100])] [("w", [106])],
        weight_distance [("w", [100])] [("w", [112])],
        weight_distance [("w", [100])] [("w", [1000])]]
      = castR [100, 99, 6, 12, 900]
  rw [wd02, wd12, wd23, wd24, wd25]
  simp [castR]

theorem othersRow_eval_3 :
    ((List.range krumClients.length).erase 3).map (distEntry krumClients 3)
      = castR [106, 105, 6, 6, 894] := by
  show [weight_distance [("w", [0])] [("w", [106])],
        weight_distance [("w", [1])] [("w", [106])],
        weight_distance [("w", [100])] [("w", [106])],
        weight_distance [("w", [106])] [("w", [112])],
        weight_distance [("w", [106])] [("w", [1000])]]
      = castR [106, 105, 6, 6, 894]
  rw [wd03, wd13, wd23, wd34, wd35]
  simp [castR]

theorem othersRow_eval_4 :
    ((List.range krumClients.length).erase 4).map (distEntry krumClients 4)
      = castR [112, 111, 12, 6, 888] := by
  show [weight_distance [("w", [0])] [("w", [112])],
        weight_distance [("w", [1])] [("w", [112])],
        weight_distance [("w", [100])] [("w", [112])],
        weight_distance [("w", [106])] [("w", [112])],
        weight_distance [("w", [112])] [("w", [1000])]]
      = castR [112, 111, 12, 6, 888]
  rw [wd04, wd14, wd24, wd34, wd45]
  simp [castR]

theorem othersRow_eval_5 :
    ((List.range krumClients.length).erase 5).map (distEntry krumClients 5)
      = castR [1000, 999, 900, 894, 888] := by
  show [weight_distance [("w", [0])] [("w", [1000])],
        weight_distance [("w", [1])] [("w", [1000])],
        weight_distance [("w", [100])] [("w", [1000])],
        weight_distance [("w", [106])] [("w", [1000])],
        weight_distance [("w", [112])] [("w", [1000])]]
      = castR [1000, 999, 900, 894, 888]
  rw [wd05, wd15, wd25, wd35, wd45]
  simp [castR]

theorem claimScore_eval_0 : krumClaimScore krumClients 2 0 = ((101 : ℚ) : ℝ) := by
  rw [krumClaimScore, othersRow_eval_0, sortR_castR,
      show krumClients.length - 2 - 2 = 2 from rfl, take_castR, sum_castR]
  norm_num [sortQ, List.insertionSort, List.orderedInsert]

theorem claimScore_eval_1 : krumClaimScore krumClients 2 1 = ((100 : ℚ) : ℝ) := by
  rw [krumClaimScore, othersRow_eval_1, sortR_castR,
      show krumClients.length - 2 - 2 = 2 from rfl, take_castR, sum_castR]
  norm_num [sortQ, List.insertionSort, List.orderedInsert]

theorem claimScore_eval_2 : krumClaimScore krumClients 2 2 = ((18 : ℚ) : ℝ) := by
  rw [krumClaimScore, othersRow_eval_2, sortR_castR,
      show krumClients.length - 2 - 2 = 2 from rfl, take_castR, sum_castR]
  norm_num [sortQ, List.insertionSort, List.orderedInsert]

theorem claimScore_eval_3 : krumClaimScore krumClients 2 3 = ((12 : ℚ) : ℝ) := by
  rw [krumClaimScore, othersRow_eval_3, sortR_castR,
      show krumClients.length - 2 - 2 = 2 from rfl, take_castR, sum_castR]
  norm_num [sortQ, List.insertionSort, List.orderedInsert]

theorem claimScore_eval_4 : krumClaimScore krumClients 2 4 = ((18 : ℚ) : ℝ) := by
  rw [krumClaimScore, othersRow_eval_4, sortR_castR,
      show krumClients.length - 2 - 2 = 2 from rfl, take_castR, sum_castR]
  norm_num [sortQ, List.insertionSort, List.orderedInsert]

theorem claimScore_eval_5 : krumClaimScore krumClients 2 5 = ((1782 : ℚ) : ℝ) := by
  rw [krumClaimScore, othersRow_eval_5, sortR_castR,
      show krumClients.length - 2 - 2 = 2 from rfl, take_castR, sum_castR]
  norm_num [sortQ, List.insertionSort, List.orderedInsert]

theorem krumScores_eval : krumScores krumClients 2 = castR [1, 1, 6, 6, 6, 888] := by
  show [krumScore krumClients 2 0, krumScore krumClients 2 1, krumScore krumClients 2 2,
        krumScore krumClients 2 3, krumScore krumClients 2 4, krumScore krumClients 2 5]
      = castR [1, 1, 6, 6, 6, 888]
  rw [krumScore_eval_0, krumScore_eval_1, krumScore_eval_2, krumScore_eval_3,
      krumScore_eval_4, krumScore_eval_5]
  rfl

theorem krum_eval : krum krumClients 2 = [("w", [0])] := by
  simp only [krum]
  rw [if_neg (by decide : ¬ krumClients.length ≤ 2 * 2 + 1),
      show krumScores krumClients 2 = krumScores krumClients 2 from rfl,
      krumScores_eval, argminIdx_castR,
      show argminIdxQ [1, 1, 6, 6, 6, 888] = 0 by
        norm_num [argminIdxQ, argminAuxQ]]
  rfl

/-- C3 counterexample: six clients at positions 0, 1, 100, 106, 112,
1000 with `byzantine_tolerance = 2`.  Under the claimed score — the sum
of the `n − f − 2` smallest distances to the OTHER clients — client 3
is the unique minimiser, yet the code returns client 0's map: the row
`np.sort(distances[i])[:n-f-2]` also contains the zero self-distance,
so only the `n − f − 3` nearest other clients are summed. -/
theorem krum_claim_counterexample :
    krum krumClients 2 = [("w", [0])]
    ∧ (∀ i, i < krumClients.length → i ≠ 3 →
        krumClaimScore krumClients 2 3 < krumClaimScore krumClients 2 i)
    ∧ krumClients.getD 3 [] = [("w", [106])]
    ∧ ([("w", [(0 : ℚ)])] : ParamMap) ≠ [("w", [106])] := by
  refine ⟨krum_eval, ?_, rfl, by norm_num⟩
  intro i hi hne
  have hi6 : i < 6 := hi
  interval_cases i
  · rw [claimScore_eval_3, claimScore_eval_0]
    exact_mod_cast (by norm_num : (12 : ℚ) < 101)
  · rw [claimScore_eval_3, claimScore_eval_1]
    exact_mod_cast (by norm_num : (12 : ℚ) < 100)
  · rw [claimScore_eval_3, claimScore_eval_2]
    exact_mod_cast (by norm_num : (12 : ℚ) < 18)
  · exact absurd rfl hne
  · rw [claimScore_eval_3, claimScore_eval_4]
    exact_mod_cast (by norm_num : (12 : ℚ) < 18)
  · rw [claimScore_eval_3, claimScore_eval_5]
    exact_mod_cast (by norm_num : (12 : ℚ) < 1782)

/-- C3 amended: the score `np.sum(np.sort(distances[i])[:n-f-2])` keeps
the zero self-distance from the diagonal, so it equals the sum of the
`n − f − 3` smallest distances to the other clients (`krumAmendScore`);
`krum` then returns the (first) client map minimising this amended
score whenever `n > 2f + 1`. -/
theorem krum_score_amended (cw : List ParamMap) (f : ℕ) :
    (∀ i, i < cw.length → krumScore cw f i = krumAmendScore cw f i)
    ∧ (2 * f + 1 < cw.length →
        krum cw f
          = cw.getD (argminIdx ((List.range cw.length).map (krumAmendScore cw f))) []) := by
  have hpt : ∀ i, i < cw.length → krumScore cw f i = krumAmendScore cw f i := by
    intro i hi
    rw [krumScore, krumAmendScore, sortR_distRow cw i hi, sum_take_cons_zero]
  refine ⟨hpt, fun h => ?_⟩
  have hmap : (List.range cw.length).map (krumScore cw f)
      = (List.range cw.length).map (krumAmendScore cw f) :=
    List.map_congr_left (fun i hi => hpt i (List.mem_range.mp hi))
  simp only [krum]
  rw [if_neg (not_le.mpr h), show krumScores cw f
        = (List.range cw.length).map (krumScore cw f) from rfl, hmap]

/-- C3 amended witness: the six-client instance with `f = 2`. -/
theorem krum_score_amended_witness :
    (1 < krumClients.length
      ∧ krumScore krumClients 2 1 = krumAmendScore krumClients 2 1)
    ∧ (2 * 2 + 1 < krumClients.length
      ∧ krum krumClients 2
          = krumClients.getD
              (argminIdx ((List.range krumClients.length).map
                (krumAmendScore krumClients 2))) []) :=
  ⟨⟨by decide, (krum_score_amended krumClients 2).1 1 (by decide)⟩,
   ⟨by decide, (krum_score_amended krumClients 2).2 (by decide)⟩⟩

end FedHealth
